import Mathlib

/-!
# Transfinite: generalized Bézier control-net addressing and 3x3 matrices

A shallow embedding of `src/test/io.cc` (the control-net file reader, writer and mesh
export) and of `src/geom/matrix3x3.cc`.

Conventions of the embedding.
* A `size_t` value is a `Nat`.  The quantities involved (`n`, `d`, `cp`, loop counters) are
  sizes of data held in memory; wrap-around of `size_t` is not modelled.  No subtraction of
  the source is ever evaluated with a negative mathematical result on the runs considered
  (`visited_eq_canonicalOrder` with `mem_canonicalOrder`: `row < d` and `col < d - row` at
  every visit).
* The functions of `matrix3x3.cc` are written over any type `R` with `0`, `1`, `+`, `-`
  and `*`.  The theorems that need `cos` and `sin` take `R` to be the reals: they are
  statements about exact arithmetic.  The type `Double` takes `R` to be the finite values,
  the two infinities and NaN of a `double`, with overflow; the rounding of a finite result
  is not modelled.
* The stream operators `operator>>` and `operator<<` on a `double` are the parameters
  `get` and `put` of the functions of `io.cc`; `extractDouble` and `insertDouble` are
  their values on decimal numerals without exponent overflow (rounding to 53 bits, and to
  the 6 significant digits of the default precision).
* A triple is always written in the argument order of the source: `(side, col, row)`.
-/

namespace Transfinite

/-! ## The traversal loop of `io.cc` -/

/-- The value `l` of `io.cc:89` and `io.cc:128`: `size_t l = (d + 1) / 2`. -/
def layers (d : Nat) : Nat := (d + 1) / 2

/-- The value `cp` of `io.cc:90-91`, `io.cc:129-130` and `io.cc:154-155`:
`cp = 1 + d / 2; cp = n * cp * l + 1`. -/
def cp (n d : Nat) : Nat := n * (1 + d / 2) * layers d + 1

/-- The block at the head of every iteration (`io.cc:101-107`, `136-142`, `159-165`,
`179-185`):
```
if (col >= d - row) { if (++side >= n) { side = 0; ++row; } col = row; }
```
The result is the triple `(side, col, row)` the body of the iteration then uses. -/
def advance (n d side col row : Nat) : Nat × Nat × Nat :=
  if col ≥ d - row then
    if side + 1 ≥ n then (0, row + 1, row + 1) else (side + 1, row, row)
  else (side, col, row)

/-- The loop `for (i = 1, side = 0, col = 0, row = 0; i < cp; ++i, ++col) { advance; body }`
with an arbitrary body acting on an accumulator.  The first argument is the number
`cp - i` of iterations still to run; the loop is entered with `cp - 1`. -/
def bezierLoop {σ : Type} (n d : Nat) (body : Nat → Nat → Nat → σ → σ) :
    Nat → Nat → Nat → Nat → σ → σ
  | 0, _, _, _, acc => acc
  | fuel + 1, side, col, row, acc =>
    let t := advance n d side col row
    bezierLoop n d body fuel t.1 (t.2.1 + 1) t.2.2 (body t.1 t.2.1 t.2.2 acc)

/-- The triples `(side, col, row)` on which the loop runs its body, in the order of the
iterations, started from the given state with the given number of iterations left. -/
def visitFrom (n d : Nat) : Nat → Nat → Nat → Nat → List (Nat × Nat × Nat)
  | 0, _, _, _ => []
  | fuel + 1, side, col, row =>
    let t := advance n d side col row
    t :: visitFrom n d fuel t.1 (t.2.1 + 1) t.2.2

/-- The triples visited by the whole loop: `cp - 1` iterations from `side = col = row = 0`. -/
def visited (n d : Nat) : List (Nat × Nat × Nat) := visitFrom n d (cp n d - 1) 0 0 0

/-- The columns `row, …, d - row - 1` of one side in one row, as triples. -/
def sideRun (d side row : Nat) : List (Nat × Nat × Nat) :=
  (List.range' row (d - 2 * row)).map fun col => (side, col, row)

/-- One row of the canonical order: sides `0, …, n - 1`, each with its columns. -/
def rowRun (n d row : Nat) : List (Nat × Nat × Nat) :=
  (List.range n).flatMap fun side => sideRun d side row

/-- The canonical flat order in the words of the specification (§4.6): rows from `0`
upward (below `l`), for each row the sides `0, …, n - 1`, for each side the columns
`row, …, d - row - 1`. -/
def canonicalOrder (n d : Nat) : List (Nat × Nat × Nat) :=
  (List.range (layers d)).flatMap fun row => rowRun n d row

/-- Lexicographic order on triples `(side, col, row)` by the key `(row, side, col)`. -/
def rowSideColLt (a b : Nat × Nat × Nat) : Prop :=
  a.2.2 < b.2.2 ∨ (a.2.2 = b.2.2 ∧ (a.1 < b.1 ∨ (a.1 = b.1 ∧ a.2.1 < b.2.1)))

instance rowSideColLtDecidable (a b : Nat × Nat × Nat) : Decidable (rowSideColLt a b) := by
  unfold rowSideColLt; infer_instance

/-! ## `findControlPoint` (the lambda of `writeBezierControlPoints`) -/

/-- The test of `io.cc:166-169` at the visited triple `(side, col, row)`:
```
size_t side_m = (side + n - 1) % n, side_p = (side + 1) % n;
(i == side && j == col && k == row) ||
(i == side_m && j == d - row && k == col) ||
(i == side_p && j == row && k == d - col)
``` -/
def aliasMatch (n d i j k side col row : Nat) : Prop :=
  (i = side ∧ j = col ∧ k = row) ∨
  (i = (side + n - 1) % n ∧ j = d - row ∧ k = col) ∨
  (i = (side + 1) % n ∧ j = row ∧ k = d - col)

instance aliasMatchDecidable (n d i j k side col row : Nat) :
    Decidable (aliasMatch n d i j k side col row) := by
  unfold aliasMatch; infer_instance

/-- The loop of `findControlPoint` (`io.cc:158-171`): the first argument is the number
`cp - c` of iterations still to run, `c` is the loop counter.  A hit returns `c + 1`; a
loop that runs out returns `0` (`io.cc:172`). -/
def findLoop (n d i j k : Nat) : Nat → Nat → Nat → Nat → Nat → Nat
  | 0, _, _, _, _ => 0
  | fuel + 1, c, side, col, row =>
    let t := advance n d side col row
    if aliasMatch n d i j k t.1 t.2.1 t.2.2 then c + 1
    else findLoop n d i j k fuel (c + 1) t.1 (t.2.1 + 1) t.2.2

/-- The lambda `findControlPoint = [n,d,cp](size_t i, size_t j, size_t k) -> size_t` of
`io.cc:157-173`, with its captured `n`, `d` and `cp`.  In `writeBezierControlPoints` the
captured `cp` is `n * (1 + d / 2) * l + 1` with `l = surf.layers()`, which the
specification (§3) gives as `(d + 1) / 2`: the value `cp n d`. -/
def findControlPoint (n d cp i j k : Nat) : Nat := findLoop n d i j k (cp - 1) 1 0 0 0

/-- The first hit of the test of `findControlPoint` in a list of triples, counted like the
loop counts: the entry at counter `c` gives `c + 1`, no hit gives `0`. -/
def firstHit (n d i j k : Nat) : List (Nat × Nat × Nat) → Nat → Nat
  | [], _ => 0
  | t :: ts, c => if aliasMatch n d i j k t.1 t.2.1 t.2.2 then c + 1
                  else firstHit n d i j k ts (c + 1)

/-- The zero-based place of the first occurrence of `t` in a list of triples (the length
of the list when `t` does not occur). -/
def placeOf (t : Nat × Nat × Nat) : List (Nat × Nat × Nat) → Nat
  | [] => 0
  | u :: L => if u = t then 0 else placeOf t L + 1

/-! ## The control net, `loadBezier` and `saveBezier` -/

/-- Modelled from the spec: the slot of the control-point arena that the triple `(i, j, k)`
names.  The bodies of `SurfaceGeneralizedBezier::controlPoint` and `setControlPoint` are
not in the sources (only their declarations, `surface-generalized-bezier.hh:17-18`).  The
specification (§3, §4.6, §9) asks for an arena of control points with an index-resolution
function that sends a canonical triple and its two boundary aliases to one slot; that
resolution is the one `findControlPoint` computes. -/
def slot (n d i j k : Nat) : Nat := findControlPoint n d (cp n d) i j k

/-- Modelled from the spec: the state of a `SurfaceGeneralizedBezier` as far as `io.cc`
uses it: the number of sides (`domain()->vertices().size()`), `degree()`,
`centralControlPoint()` and the arena of control points, indexed by slot. -/
structure SurfaceGeneralizedBezier (P : Type) where
  n : Nat
  degree_ : Nat
  central_cp_ : P
  net : Nat → P

/-- Modelled from the spec: the default-constructed `SurfaceGeneralizedBezier()`: no sides,
degree `0`, no coordinates (an unset point is `default`). -/
def SurfaceGeneralizedBezier.empty {P : Type} [Inhabited P] : SurfaceGeneralizedBezier P :=
  ⟨0, 0, default, fun _ => default⟩

/-- Modelled from the spec: `initNetwork(n, d)` allocates the net shape for `n` sides and
degree `d`, with no coordinates yet. -/
def SurfaceGeneralizedBezier.initNetwork {P : Type} [Inhabited P]
    (surf : SurfaceGeneralizedBezier P) (n d : Nat) : SurfaceGeneralizedBezier P :=
  { surf with n := n, degree_ := d, net := fun _ => default }

/-- Modelled from the spec: `setCentralControlPoint(p)`. -/
def SurfaceGeneralizedBezier.setCentralControlPoint {P : Type}
    (surf : SurfaceGeneralizedBezier P) (p : P) : SurfaceGeneralizedBezier P :=
  { surf with central_cp_ := p }

/-- Modelled from the spec: `setControlPoint(i, j, k, p)` stores `p` in the slot that
`(i, j, k)` resolves to. -/
def SurfaceGeneralizedBezier.setControlPoint {P : Type}
    (surf : SurfaceGeneralizedBezier P) (i j k : Nat) (p : P) : SurfaceGeneralizedBezier P :=
  { surf with net := Function.update surf.net (slot surf.n surf.degree_ i j k) p }

/-- Modelled from the spec: `controlPoint(i, j, k)` is the content of the slot that
`(i, j, k)` resolves to, that is the last point stored there. -/
def SurfaceGeneralizedBezier.controlPoint {P : Type}
    (surf : SurfaceGeneralizedBezier P) (i j k : Nat) : P :=
  surf.net (slot surf.n surf.degree_ i j k)

/-- Modelled from the spec: `setupLoop()` derives cached data only; the control net, the
number of sides and the degree are unchanged. -/
def SurfaceGeneralizedBezier.setupLoop {P : Type} (surf : SurfaceGeneralizedBezier P) :
    SurfaceGeneralizedBezier P := surf

/-- Modelled from the spec: `Point3D`, three real components read and written with
`operator[]` (the class is declared in `geometry.hh`, which is not in the sources).  The
same shape serves for the three numerals of one point in a file. -/
abbrev Point3D (D : Type) := Fin 3 → D

/-- The content of a control-net file, numeral by numeral: the header `n d`, the complete
points that follow it (three numerals each, the central point first) and the numerals after
the last complete point (one or two of them in a file that ends inside a point). -/
structure BezierFile (T : Type) where
  n : Nat
  d : Nat
  points : List (Point3D T)
  rest : List T

/-- The numerals of a file after its header, in the order the stream delivers them. -/
def BezierFile.stream {T : Type} (file : BezierFile T) : List T :=
  (file.points.flatMap fun q => [q 0, q 1, q 2]) ++ file.rest

/-- One extraction `f >> x` into a `double` on the numerals still unread.  The library
operator is the parameter `get`: the `double` it stores for a numeral.  At the end of the
input the extraction fails, `x` keeps its value, and every later extraction fails too. -/
def readDouble {T D : Type} (get : T → D) (stream : List T) (x : D) : D × List T :=
  match stream with
  | [] => (x, [])
  | t :: rest => (get t, rest)

/-- The statement `f >> p[0] >> p[1] >> p[2]` (`io.cc:97`, `io.cc:108`): three extractions,
one after the other, each into its own coordinate of `p`. -/
def readPoint {T D : Type} (get : T → D) (stream : List T) (p : Point3D D) :
    Point3D D × List T :=
  let r0 := readDouble get stream (p 0)
  let r1 := readDouble get r0.2 (p 1)
  let r2 := readDouble get r1.2 (p 2)
  (![r0.1, r1.1, r2.1], r2.2)

/-- The line written by `f << p[0] << ' ' << p[1] << ' ' << p[2] << std::endl`
(`io.cc:133`, `io.cc:144`, and after `"v "` `io.cc:177`, `io.cc:187`): three insertions of
a `double`.  The library operator is the parameter `put`: the numeral it writes for a
`double` at the default precision of the stream, six significant digits. -/
def writePoint {D T : Type} (put : D → T) (p : Point3D D) : Point3D T :=
  ![put (p 0), put (p 1), put (p 2)]

/-- The variables the loop of `loadBezier` changes: the stream `f`, the point `p` and the
surface `surf`. -/
structure LoadState (T D : Type) where
  stream : List T
  p : Point3D D
  surf : SurfaceGeneralizedBezier (Point3D D)

/-- The body of the loop of `loadBezier` (`io.cc:108-109`):
`f >> p[0] >> p[1] >> p[2]; surf.setControlPoint(side, col, row, p);`. -/
def loadBody {T D : Type} (get : T → D) (side col row : Nat) (s : LoadState T D) :
    LoadState T D :=
  let r := readPoint get s.stream s.p
  ⟨r.2, r.1, s.surf.setControlPoint side col row r.1⟩

/-- The function `loadBezier` of `io.cc:80-116`.  The argument `f` is the content of the
file named `filename`, `none` when the file cannot be opened.  The result is the returned
surface together with what was written to `std::cerr`.  The point `p` is declared without
a value; `default` stands for what it holds before the first extraction. -/
def loadBezier {T D : Type} [Inhabited D] (get : T → D) (filename : String)
    (f : Option (BezierFile T)) : SurfaceGeneralizedBezier (Point3D D) × List String :=
  match f with
  | none => (SurfaceGeneralizedBezier.empty, ["Unable to open file: " ++ filename])
  | some file =>
    let n := file.n
    let d := file.d
    let surf : SurfaceGeneralizedBezier (Point3D D) :=
      SurfaceGeneralizedBezier.empty.initNetwork n d
    let r := readPoint get file.stream default
    let surf := surf.setCentralControlPoint r.1
    let s := bezierLoop n d (loadBody get) (cp n d - 1) 0 0 0 ⟨r.2, r.1, surf⟩
    (s.surf.setupLoop, [])

/-- The body of the loop of `saveBezier` (`io.cc:143-144`):
`p = surf.controlPoint(side, col, row); f << p[0] << ' ' << p[1] << ' ' << p[2] << endl;`.
The accumulator is the list of lines written so far. -/
def saveBody {D T : Type} (put : D → T) (surf : SurfaceGeneralizedBezier (Point3D D))
    (side col row : Nat) (out : List (Point3D T)) : List (Point3D T) :=
  out ++ [writePoint put (surf.controlPoint side col row)]

/-- The function `saveBezier` of `io.cc:118-147`.  The argument `opened` tells whether the
file named `filename` could be opened for writing.  The result is the content written to
the file (`none` when nothing is written) together with what was written to `std::cerr`:
the header, the line of the central point, then the lines of the loop. -/
def saveBezier {D T : Type} (put : D → T) (surf : SurfaceGeneralizedBezier (Point3D D))
    (filename : String) (opened : Bool) : Option (BezierFile T) × List String :=
  if opened then
    let n := surf.n
    let d := surf.degree_
    (some ⟨n, d, bezierLoop n d (saveBody put surf) (cp n d - 1) 0 0 0
      [writePoint put surf.central_cp_], []⟩, [])
  else (none, ["Unable to open file: " ++ filename])

/-! ### The stream operators on numbers

The two library operators are parameters of the functions above.  For a closed example
they are given here as functions on rational numbers: every numeral and every finite
`double` is a rational number. -/

/-- The integer nearest to `x`, the even one of the two when `x` lies half way. -/
def roundHalfEven (x : ℚ) : ℤ :=
  let f := ⌊x⌋
  if x - f < 1 / 2 then f
  else if 1 / 2 < x - f then f + 1
  else if f % 2 = 0 then f else f + 1

/-- The number `q` rounded to `p` significant digits in base `b`, to nearest, ties to
even. -/
def roundSig (b p : Nat) (q : ℚ) : ℚ :=
  if q = 0 then 0
  else
    let e : ℤ := Int.log b |q|
    let ulp : ℚ := (b : ℚ) ^ (e + 1 - p)
    roundHalfEven (q / ulp) * ulp

/-- The `double` that `operator>>` stores for the numeral `q`: the nearest number with 53
significant binary digits (numerals beyond the range of normal `double`s are outside this
description). -/
def extractDouble (q : ℚ) : ℚ := roundSig 2 53 q

/-- The numeral that `operator<<` writes for the `double` `x` at the default precision:
`x` rounded to six significant decimal digits. -/
def insertDouble (x : ℚ) : ℚ := roundSig 10 6 x

/-! ## `writeBezierControlPoints` -/

/-- Modelled from the spec: `layers()`, the number `l = ⌊(d + 1) / 2⌋` of rings of the net
(§3); the body of the accessor is not in the sources. -/
def SurfaceGeneralizedBezier.layers {P : Type} (surf : SurfaceGeneralizedBezier P) : Nat :=
  Transfinite.layers surf.degree_

/-- The content `writeBezierControlPoints` writes: the `v` lines (three numerals each) and the
`f` lines (the vertex numbers of one face each), in the order they are written. -/
structure MeshFile (T : Type) where
  vertices : List (Point3D T)
  faces : List (List Nat)

/-- The `f` lines of the first face loop (`io.cc:190-198`), with `find` for the lambda
`findControlPoint`:
```
for (i = 0; i < n; ++i) for (j = 0; j <= d / 2; ++j) for (k = 0; k < l - 1; ++k)
  f << a << b << c << d   // find(i,j,k), find(i,j+1,k), find(i,j+1,k+1), find(i,j,k+1)
``` -/
def quadFaces (n d l : Nat) (find : Nat → Nat → Nat → Nat) : List (List Nat) :=
  (List.range n).flatMap fun i =>
    (List.range (d / 2 + 1)).flatMap fun j =>
      (List.range (l - 1)).map fun k =>
        [find i j k, find i (j + 1) k, find i (j + 1) (k + 1), find i j (k + 1)]

/-- The `f` lines of the second face loop (`io.cc:199-214`), one line for each side: for an
even `d` the four numbers `find(i, l-1, l-1)`, `find(i, l, l-1)`, `1`, `find(im, l, l-1)`
with `im = (i + n - 1) % n`, for an odd `d` the first three of them. -/
def ringFaces (n d l : Nat) (find : Nat → Nat → Nat → Nat) : List (List Nat) :=
  if d % 2 = 0 then
    (List.range n).map fun i =>
      let im := (i + n - 1) % n
      [find i (l - 1) (l - 1), find i l (l - 1), 1, find im l (l - 1)]
  else
    (List.range n).map fun i =>
      [find i (l - 1) (l - 1), find i l (l - 1), 1]

/-- The function `writeBezierControlPoints` of `io.cc:149-217`.  The argument `opened`
tells whether the file named `filename` could be opened for writing: the function does
not test it, and on a stream that failed to open every `<<` writes nothing.  The result
is the content written to the file (`none` when nothing is written) together with what
was written to `std::cerr`, which is nothing on every path.  The body of the vertex loop
(`io.cc:186-187`) reads `surf.controlPoint(side, col, row)` and writes its three
coordinates as one `v` line, like the body of the loop of `saveBezier`. -/
def writeBezierControlPoints {D T : Type} (put : D → T)
    (surf : SurfaceGeneralizedBezier (Point3D D)) (_filename : String) (opened : Bool) :
    Option (MeshFile T) × List String :=
  let n := surf.n
  let d := surf.degree_
  let l := surf.layers
  let cp := n * (1 + d / 2) * l + 1
  let vertices := bezierLoop n d (saveBody put surf) (cp - 1) 0 0 0
    [writePoint put surf.central_cp_]
  let faces := quadFaces n d l (findControlPoint n d cp)
    ++ ringFaces n d l (findControlPoint n d cp)
  (if opened then some ⟨vertices, faces⟩ else none, [])

end Transfinite

namespace Geometry

/-! ## `Matrix3x3` (`src/geom/matrix3x3.cc`) -/

/-- Modelled from the spec: `Vector3D`, three real components read with `operator[]`
(the class is declared in `geometry.hh`, which is not in the sources). -/
abbrev Vector3D (R : Type) := Fin 3 → R

/-- Modelled from the spec: `Matrix3x3`, nine real components in row-major order, the
member `std::array<double, 9> m_` (declared in `geometry.hh`). -/
structure Matrix3x3 (R : Type) where
  m_ : Fin 9 → R

/-- A declared and not yet assigned `Vector3D`; its components are never read before they
are written, `0` stands for them. -/
def Vector3D.uninit {R : Type} [Zero R] : Vector3D R := fun _ => 0

/-- The read `v[i]` with a `size_t` index. -/
def Vector3D.get {R : Type} (v : Vector3D R) (i : Nat) : R := v (Fin.ofNat i)

/-- The write `v[i] = x` with a `size_t` index. -/
def Vector3D.set {R : Type} (v : Vector3D R) (i : Nat) (x : R) : Vector3D R :=
  Function.update v (Fin.ofNat i) x

/-- A declared and not yet assigned `Matrix3x3`; its components are never read before they
are written, `0` stands for them. -/
def Matrix3x3.uninit {R : Type} [Zero R] : Matrix3x3 R := ⟨fun _ => 0⟩

/-- The read `m_[p]` with a `size_t` index. -/
def Matrix3x3.get {R : Type} (M : Matrix3x3 R) (p : Nat) : R := M.m_ (Fin.ofNat p)

/-- The write `m_[p] = x` with a `size_t` index. -/
def Matrix3x3.set {R : Type} (M : Matrix3x3 R) (p : Nat) (x : R) : Matrix3x3 R :=
  ⟨Function.update M.m_ (Fin.ofNat p) x⟩

/-- The call `m_.fill(x)`. -/
def Matrix3x3.fill {R : Type} (_M : Matrix3x3 R) (x : R) : Matrix3x3 R := ⟨fun _ => x⟩

/-- The function `Matrix3x3::identity` (`matrix3x3.cc:7-15`). -/
def Matrix3x3.identity {R : Type} [Zero R] [One R] : Matrix3x3 R :=
  let I : Matrix3x3 R := Matrix3x3.uninit
  let I := I.fill 0
  let I := I.set 0 1
  let I := I.set 4 1
  let I := I.set 8 1
  I

/-- The operator `Matrix3x3::operator+` (`matrix3x3.cc:29-35`). -/
def Matrix3x3.add {R : Type} [Zero R] [Add R] (a m : Matrix3x3 R) : Matrix3x3 R :=
  (List.range 9).foldl (fun result i => result.set i (a.get i + m.get i)) Matrix3x3.uninit

/-- The operator `Matrix3x3::operator*(double x)` (`matrix3x3.cc:44-50`). -/
def Matrix3x3.mulScalar {R : Type} [Zero R] [Mul R] (a : Matrix3x3 R) (x : R) : Matrix3x3 R :=
  (List.range 9).foldl (fun result i => result.set i (a.get i * x)) Matrix3x3.uninit

/-- The operator `Matrix3x3::operator*(const Vector3D &v)` (`matrix3x3.cc:59-69`). -/
def Matrix3x3.mulVec {R : Type} [Zero R] [Add R] [Mul R] (a : Matrix3x3 R) (v : Vector3D R) : Vector3D R :=
  (List.range 3).foldl (fun result i =>
    let sum := (List.range 3).foldl (fun sum k => sum + a.get (3 * i + k) * v.get k) 0
    result.set i sum) Vector3D.uninit

/-- The operator `Matrix3x3::operator*(const Matrix3x3 &m)` (`matrix3x3.cc:71-82`). -/
def Matrix3x3.mul {R : Type} [Zero R] [Add R] [Mul R] (a m : Matrix3x3 R) : Matrix3x3 R :=
  (List.range 3).foldl (fun result i =>
    (List.range 3).foldl (fun result j =>
      let sum :=
        (List.range 3).foldl (fun sum k => sum + a.get (3 * i + k) * m.get (3 * k + j)) 0
      result.set (3 * i + j) sum) result) Matrix3x3.uninit

/-- The function `Matrix3x3::rotation` (`matrix3x3.cc:17-27`).  The library functions
`std::cos` and `std::sin` are the parameters `cos` and `sin`. -/
def Matrix3x3.rotation {R : Type} [Zero R] [One R] [Add R] [Sub R] [Mul R] [Neg R]
    (cos sin : R → R) (axis : Vector3D R) (angle : R) : Matrix3x3 R :=
  let A : Matrix3x3 R := Matrix3x3.uninit
  let B : Matrix3x3 R := Matrix3x3.uninit
  let A := ((A.set 0 0).set 1 (-axis.get 2)).set 2 (axis.get 1)
  let A := ((A.set 3 (axis.get 2)).set 4 0).set 5 (-axis.get 0)
  let A := ((A.set 6 (-axis.get 1)).set 7 (axis.get 0)).set 8 0
  let B := (List.range 3).foldl (fun B i =>
    (List.range 3).foldl (fun B j => B.set (3 * i + j) (axis.get i * axis.get j)) B) B
  ((Matrix3x3.identity.mulScalar (cos angle)).add (A.mulScalar (sin angle))).add
    (B.mulScalar (1 - cos angle))

/-! ### The notions the claims are stated with -/

/-- The matrix with entry `m_[3 * i + j]` in row `i` and column `j`. -/
def Matrix3x3.toMatrix {R : Type} (M : Matrix3x3 R) : Matrix (Fin 3) (Fin 3) R :=
  Matrix.of fun i j => M.get (3 * i.val + j.val)

/-- Modelled from the spec: the squared Euclidean length of a vector (`geometry.hh` is not
in the sources); the length is its square root. -/
def Vector3D.normSqr {R : Type} [CommRing R] (v : Vector3D R) : R :=
  v 0 * v 0 + v 1 * v 1 + v 2 * v 2

/-- The skew-symmetric cross-product matrix `[a]×` of the specification (§4.1). -/
def skew {R : Type} [CommRing R] (a : Vector3D R) : Matrix (Fin 3) (Fin 3) R :=
  Matrix.of ![![0, -a 2, a 1], ![a 2, 0, -a 0], ![-a 1, a 0, 0]]

/-- The matrix `a ⊗ a` of the specification (§4.1). -/
def outer {R : Type} [CommRing R] (a : Vector3D R) : Matrix (Fin 3) (Fin 3) R :=
  Matrix.of fun i j => a i * a j

/-- The Rodrigues decomposition of the specification (§4.1) with `c` for `cos θ` and `s`
for `sin θ`: `c·I + s·[a]× + (1 − c)·(a ⊗ a)`. -/
def rodrigues {R : Type} [CommRing R] (c s : R) (a : Vector3D R) : Matrix (Fin 3) (Fin 3) R :=
  c • (1 : Matrix (Fin 3) (Fin 3) R) + s • skew a + (1 - c) • outer a

/-! ## A `double` with its infinities and NaN -/

/-- A `double`: a finite value, an infinity with its sign, or NaN.  Finite values are
rational numbers and the rounding of a finite result to 53 bits is not modelled; the
overflow of a result to an infinity and the NaN of `∞ · 0` and `∞ − ∞` are.  The two
zeros, equal under `==`, are one value. -/
inductive Double where
  | fin (q : ℚ)
  | inf (negative : Bool)
  | nan

/-- The least magnitude that rounds to an infinity, `2^1024 − 2^970`. -/
def Double.overflowBound : ℚ := 2 ^ 1024 - 2 ^ 970

/-- The `double` of an exact finite result: an infinity from `Double.overflowBound` on. -/
def Double.ofExact (q : ℚ) : Double :=
  if Double.overflowBound ≤ q then Double.inf false
  else if q ≤ -Double.overflowBound then Double.inf true
  else Double.fin q

/-- The unary minus of `double`. -/
def Double.neg : Double → Double
  | Double.fin q => Double.fin (-q)
  | Double.inf s => Double.inf (!s)
  | Double.nan => Double.nan

/-- The addition of `double`. -/
def Double.add : Double → Double → Double
  | Double.fin a, Double.fin b => Double.ofExact (a + b)
  | Double.fin _, Double.inf s => Double.inf s
  | Double.inf s, Double.fin _ => Double.inf s
  | Double.inf s, Double.inf t => if s = t then Double.inf s else Double.nan
  | Double.nan, _ => Double.nan
  | _, Double.nan => Double.nan

/-- The multiplication of `double`. -/
def Double.mul : Double → Double → Double
  | Double.fin a, Double.fin b => Double.ofExact (a * b)
  | Double.fin a, Double.inf s => if a = 0 then Double.nan else Double.inf (xor s (decide (a < 0)))
  | Double.inf s, Double.fin b => if b = 0 then Double.nan else Double.inf (xor s (decide (b < 0)))
  | Double.inf s, Double.inf t => Double.inf (xor s t)
  | Double.nan, _ => Double.nan
  | _, Double.nan => Double.nan

instance : Zero Double := ⟨Double.fin 0⟩

instance : One Double := ⟨Double.fin 1⟩

instance : Neg Double := ⟨Double.neg⟩

instance : Add Double := ⟨Double.add⟩

instance : Sub Double := ⟨fun a b => Double.add a (Double.neg b)⟩

instance : Mul Double := ⟨Double.mul⟩

end Geometry

namespace Transfinite

/-! ### The loop visits the canonical order -/

theorem visitFrom_run (n d fuel side row : Nat) :
    ∀ (k col : Nat), col + k = d - row →
      visitFrom n d (k + fuel) side col row
        = (List.range' col k).map (fun c => (side, c, row))
          ++ visitFrom n d fuel side (d - row) row := by
  intro k
  induction k with
  | zero => intro col h; simp at h; simp [h]
  | succ k ih =>
    intro col h
    have hlt : ¬ col ≥ d - row := by omega
    have e : k + 1 + fuel = (k + fuel) + 1 := by omega
    rw [e]
    simp only [visitFrom, advance, hlt, if_false, List.range'_succ, List.map_cons,
      List.cons_append]
    rw [ih (col + 1) (by omega)]

theorem length_sideRun (d side row : Nat) : (sideRun d side row).length = d - 2 * row := by
  simp [sideRun]

/-- From the end of a run, a step to the next side of the same row. -/
theorem visitFrom_nextSide (n d fuel side row : Nat) (hs : side + 1 < n) (hr : 2 * row < d) :
    visitFrom n d ((sideRun d (side + 1) row).length + fuel) side (d - row) row
      = sideRun d (side + 1) row ++ visitFrom n d fuel (side + 1) (d - row) row := by
  have e : (sideRun d (side + 1) row).length + fuel = ((d - 2 * row - 1) + fuel) + 1 := by
    rw [length_sideRun]; omega
  have hs' : ¬ side + 1 ≥ n := by omega
  rw [e]
  simp only [visitFrom, advance, ge_iff_le, le_refl, if_true, hs', if_false]
  rw [visitFrom_run n d fuel (side + 1) row (d - 2 * row - 1) (row + 1) (by omega)]
  have e2 : d - 2 * row = (d - 2 * row - 1) + 1 := by omega
  simp only [sideRun]
  conv_rhs => rw [e2, List.range'_succ]
  simp

/-- From the end of the last side of a row, a step to side `0` of the next row. -/
theorem visitFrom_nextRow (n d fuel side row : Nat) (hs : side + 1 ≥ n)
    (hr : 2 * (row + 1) < d) :
    visitFrom n d ((sideRun d 0 (row + 1)).length + fuel) side (d - row) row
      = sideRun d 0 (row + 1) ++ visitFrom n d fuel 0 (d - (row + 1)) (row + 1) := by
  have e : (sideRun d 0 (row + 1)).length + fuel = ((d - 2 * (row + 1) - 1) + fuel) + 1 := by
    rw [length_sideRun]; omega
  rw [e]
  simp only [visitFrom, advance, ge_iff_le, le_refl, if_true, hs]
  rw [visitFrom_run n d fuel 0 (row + 1) (d - 2 * (row + 1) - 1) (row + 1 + 1) (by omega)]
  have e2 : d - 2 * (row + 1) = (d - 2 * (row + 1) - 1) + 1 := by omega
  simp only [sideRun]
  conv_rhs => rw [e2, List.range'_succ]
  simp

/-- The sides after `side` in one row, as one list. -/
theorem visitFrom_sides (n d fuel row : Nat) (hr : 2 * row < d) :
    ∀ (m side : Nat), side + m + 1 = n →
      visitFrom n d (((List.range' (side + 1) m).flatMap fun s => sideRun d s row).length + fuel)
          side (d - row) row
        = ((List.range' (side + 1) m).flatMap fun s => sideRun d s row)
          ++ visitFrom n d fuel (n - 1) (d - row) row := by
  intro m
  induction m with
  | zero =>
    intro side h
    have : side = n - 1 := by omega
    simp [this]
  | succ m ih =>
    intro side h
    simp only [List.range'_succ, List.flatMap_cons, List.length_append, List.append_assoc]
    rw [Nat.add_assoc, visitFrom_nextSide n d _ side row (by omega) hr,
      ih (side + 1) (by omega)]

theorem rowRun_eq (n d row : Nat) (hn : 1 ≤ n) :
    rowRun n d row
      = sideRun d 0 row ++ ((List.range' (0 + 1) (n - 1)).flatMap fun s => sideRun d s row) := by
  obtain ⟨m, rfl⟩ : ∃ m, n = m + 1 := ⟨n - 1, by omega⟩
  simp [rowRun, List.range_eq_range', List.range'_succ]

/-- The first row, from the initial state of the loop. -/
theorem visitFrom_firstRow (n d fuel : Nat) (hn : 1 ≤ n) (hd : 1 ≤ d) :
    visitFrom n d ((rowRun n d 0).length + fuel) 0 0 0
      = rowRun n d 0 ++ visitFrom n d fuel (n - 1) (d - 0) 0 := by
  rw [rowRun_eq n d 0 hn, List.length_append, Nat.add_assoc, length_sideRun]
  rw [visitFrom_run n d _ 0 0 (d - 2 * 0) 0 (by omega)]
  rw [visitFrom_sides n d fuel 0 (by omega) (n - 1) 0 (by omega)]
  simp [sideRun]

/-- A further row, from the end of the row before it. -/
theorem visitFrom_row (n d fuel row : Nat) (hn : 1 ≤ n) (hr : 2 * (row + 1) < d) :
    visitFrom n d ((rowRun n d (row + 1)).length + fuel) (n - 1) (d - row) row
      = rowRun n d (row + 1) ++ visitFrom n d fuel (n - 1) (d - (row + 1)) (row + 1) := by
  rw [rowRun_eq n d (row + 1) hn, List.length_append, Nat.add_assoc]
  rw [visitFrom_nextRow n d _ (n - 1) row (by omega) hr]
  rw [visitFrom_sides n d fuel (row + 1) (by omega) (n - 1) 0 (by omega)]
  simp

/-- The rows after `row`, as one list. -/
theorem visitFrom_rows (n d fuel : Nat) (hn : 1 ≤ n) :
    ∀ (m row : Nat), 2 * (row + m) < d →
      visitFrom n d (((List.range' (row + 1) m).flatMap fun r => rowRun n d r).length + fuel)
          (n - 1) (d - row) row
        = ((List.range' (row + 1) m).flatMap fun r => rowRun n d r)
          ++ visitFrom n d fuel (n - 1) (d - (row + m)) (row + m) := by
  intro m
  induction m with
  | zero => intro row _; simp
  | succ m ih =>
    intro row h
    simp only [List.range'_succ, List.flatMap_cons, List.length_append, List.append_assoc]
    rw [Nat.add_assoc, visitFrom_row n d _ row hn (by omega), ih (row + 1) (by omega)]
    have e : row + 1 + m = row + (m + 1) := by omega
    rw [e]

theorem canonicalOrder_eq (n d : Nat) (hd : 1 ≤ d) :
    canonicalOrder n d
      = rowRun n d 0
        ++ ((List.range' (0 + 1) (layers d - 1)).flatMap fun r => rowRun n d r) := by
  obtain ⟨m, hm⟩ : ∃ m, layers d = m + 1 := ⟨layers d - 1, by unfold layers; omega⟩
  simp [canonicalOrder, hm, List.range_eq_range', List.range'_succ]

/-- Run for as many iterations as the canonical order is long, the loop visits the
canonical order. -/
theorem visitFrom_canonicalOrder (n d : Nat) (hn : 1 ≤ n) (hd : 1 ≤ d) :
    visitFrom n d (canonicalOrder n d).length 0 0 0 = canonicalOrder n d := by
  have h := visitFrom_firstRow n d
    (((List.range' (0 + 1) (layers d - 1)).flatMap fun r => rowRun n d r).length + 0) hn hd
  rw [visitFrom_rows n d 0 hn (layers d - 1) 0 (by unfold layers; omega)] at h
  rw [canonicalOrder_eq n d hd, List.length_append]
  simpa [visitFrom] using h

/-! ### Size, members and order of the canonical order -/

theorem length_rowRun (n d row : Nat) : (rowRun n d row).length = n * (d - 2 * row) := by
  simp [rowRun, Function.comp_def, length_sideRun]

theorem sum_rowLengths (n d : Nat) :
    ∀ m : Nat, 2 * m ≤ d + 1 →
      ((List.range m).map fun r => n * (d - 2 * r)).sum + n * (m * m) = n * (m * (d + 1)) := by
  intro m
  induction m with
  | zero => intro _; simp
  | succ m ih =>
    intro h
    have ih' := ih (by omega)
    have e : d - 2 * m + 2 * m = d := by omega
    rw [List.range_succ, List.map_append, List.sum_append]
    simp only [List.map_cons, List.map_nil, List.sum_cons, List.sum_nil, Nat.add_zero]
    have e3 : n * (d - 2 * m) + n * (2 * m) = n * d := by rw [← Nat.mul_add, e]
    nlinarith [ih', e3]

theorem length_canonicalOrder (n d : Nat) : (canonicalOrder n d).length = cp n d - 1 := by
  have h := sum_rowLengths n d (layers d) (by unfold layers; omega)
  have e : 1 + d / 2 + layers d = d + 1 := by unfold layers; omega
  have hlen : (canonicalOrder n d).length
      = ((List.range (layers d)).map fun r => n * (d - 2 * r)).sum := by
    simp [canonicalOrder, Function.comp_def, length_rowRun]
  rw [hlen, cp]
  have e2 : n * (1 + d / 2) * layers d + n * (layers d * layers d)
      = n * (layers d * (d + 1)) := by
    rw [← e]; ring
  omega

theorem mem_rowRun (n d row : Nat) (t : Nat × Nat × Nat) :
    t ∈ rowRun n d row ↔ t.1 < n ∧ row ≤ t.2.1 ∧ t.2.1 + row < d ∧ t.2.2 = row := by
  obtain ⟨s, c, r⟩ := t
  simp only [rowRun, sideRun, List.mem_flatMap, List.mem_range, List.mem_map, List.mem_range',
    Prod.mk.injEq]
  constructor
  · rintro ⟨s', hs, c', ⟨i, hi, rfl⟩, rfl, rfl, rfl⟩
    exact ⟨hs, by omega, by omega, rfl⟩
  · rintro ⟨hs, h1, h2, rfl⟩
    exact ⟨s, hs, c, ⟨c - r, by omega, by omega⟩, rfl, rfl, rfl⟩

theorem mem_canonicalOrder (n d : Nat) (t : Nat × Nat × Nat) :
    t ∈ canonicalOrder n d ↔ t.2.2 < layers d ∧ t.1 < n ∧ t.2.2 ≤ t.2.1 ∧ t.2.1 + t.2.2 < d := by
  simp only [canonicalOrder, List.mem_flatMap, List.mem_range, mem_rowRun]
  constructor
  · rintro ⟨r, hr, hs, h1, h2, rfl⟩
    exact ⟨hr, hs, h1, h2⟩
  · rintro ⟨hr, hs, h1, h2⟩
    exact ⟨t.2.2, hr, hs, h1, h2, rfl⟩

theorem pairwise_sideRun (d side row : Nat) : (sideRun d side row).Pairwise rowSideColLt := by
  rw [sideRun, List.pairwise_map]
  refine (List.pairwise_lt_range' row (d - 2 * row)).imp ?_
  intro a b hab
  exact Or.inr ⟨rfl, Or.inr ⟨rfl, hab⟩⟩

theorem pairwise_rowRun (n d row : Nat) : (rowRun n d row).Pairwise rowSideColLt := by
  rw [rowRun, List.pairwise_flatMap]
  refine ⟨fun s _ => pairwise_sideRun d s row, (List.pairwise_lt_range n).imp ?_⟩
  intro a b hab x hx y hy
  simp only [sideRun, List.mem_map] at hx hy
  obtain ⟨_, _, rfl⟩ := hx
  obtain ⟨_, _, rfl⟩ := hy
  exact Or.inr ⟨rfl, Or.inl hab⟩

theorem pairwise_canonicalOrder (n d : Nat) : (canonicalOrder n d).Pairwise rowSideColLt := by
  rw [canonicalOrder, List.pairwise_flatMap]
  refine ⟨fun r _ => pairwise_rowRun n d r, (List.pairwise_lt_range (layers d)).imp ?_⟩
  intro a b hab x hx y hy
  rw [mem_rowRun] at hx hy
  exact Or.inl (by omega)

theorem rowSideColLt_irrefl (a : Nat × Nat × Nat) : ¬ rowSideColLt a a := by
  unfold rowSideColLt; omega

theorem nodup_canonicalOrder (n d : Nat) : (canonicalOrder n d).Nodup :=
  (pairwise_canonicalOrder n d).imp fun {a b} h (e : a = b) =>
    rowSideColLt_irrefl a (by rw [← e] at h; exact h)

theorem filter_rowRun (n d a r : Nat) :
    (rowRun n d a).filter (fun t => decide (t.2.2 = r)) = if a = r then rowRun n d a else [] := by
  split
  · next h =>
    rw [List.filter_eq_self]
    intro t ht
    rw [mem_rowRun] at ht
    simp [ht.2.2.2, h]
  · next h =>
    rw [List.filter_eq_nil_iff]
    intro t ht
    rw [mem_rowRun] at ht
    simp [ht.2.2.2, h]

theorem filter_rows (n d r : Nat) :
    ∀ L : List Nat, L.Nodup → r ∈ L →
      (L.flatMap fun row => rowRun n d row).filter (fun t => decide (t.2.2 = r))
        = rowRun n d r := by
  have hnot : ∀ L : List Nat, r ∉ L →
      (L.flatMap fun row => rowRun n d row).filter (fun t => decide (t.2.2 = r)) = [] := by
    intro L hL
    rw [List.filter_eq_nil_iff]
    intro t ht
    simp only [List.mem_flatMap, mem_rowRun] at ht
    obtain ⟨a, ha, _, _, _, h⟩ := ht
    have : a ≠ r := fun e => hL (e ▸ ha)
    simp [h, this]
  intro L
  induction L with
  | nil => intro _ h; simp at h
  | cons a L ih =>
    intro hnd hmem
    rw [List.nodup_cons] at hnd
    rw [List.flatMap_cons, List.filter_append, filter_rowRun]
    by_cases h : a = r
    · subst h
      simp [hnot L hnd.1]
    · have hr : r ∈ L := by
        rcases List.mem_cons.1 hmem with e | e
        · exact absurd e.symm h
        · exact e
      simp [h, ih hnd.2 hr]

theorem visited_eq_canonicalOrder (n d : Nat) (hn : 1 ≤ n) (hd : 1 ≤ d) :
    visited n d = canonicalOrder n d := by
  rw [visited, ← length_canonicalOrder, visitFrom_canonicalOrder n d hn hd]

/-! ### The loops as folds over the visited triples -/

theorem bezierLoop_eq_foldl {σ : Type} (n d : Nat) (body : Nat → Nat → Nat → σ → σ) :
    ∀ (fuel side col row : Nat) (acc : σ),
      bezierLoop n d body fuel side col row acc
        = (visitFrom n d fuel side col row).foldl (fun a t => body t.1 t.2.1 t.2.2 a) acc := by
  intro fuel
  induction fuel with
  | zero => intros; rfl
  | succ fuel ih =>
    intro side col row acc
    simp only [bezierLoop, visitFrom, List.foldl_cons]
    exact ih _ _ _ _

theorem findLoop_eq_firstHit (n d i j k : Nat) :
    ∀ (fuel c side col row : Nat),
      findLoop n d i j k fuel c side col row
        = firstHit n d i j k (visitFrom n d fuel side col row) c := by
  intro fuel
  induction fuel with
  | zero => intros; rfl
  | succ fuel ih =>
    intro c side col row
    simp only [findLoop, visitFrom, firstHit]
    split
    · rfl
    · exact ih _ _ _ _

/-- In a list where the query hits the entry `t` and no other entry, the first hit is at
the place of `t`. -/
theorem firstHit_of_unique (n d i j k : Nat) (t : Nat × Nat × Nat)
    (ht : aliasMatch n d i j k t.1 t.2.1 t.2.2) :
    ∀ (L : List (Nat × Nat × Nat)) (c : Nat), t ∈ L →
      (∀ u ∈ L, aliasMatch n d i j k u.1 u.2.1 u.2.2 → u = t) →
      firstHit n d i j k L c = c + placeOf t L + 1 := by
  intro L
  induction L with
  | nil => intro c h; simp at h
  | cons u L ih =>
    intro c hmem huniq
    by_cases hu : aliasMatch n d i j k u.1 u.2.1 u.2.2
    · have e : u = t := huniq u (List.mem_cons_self _ _) hu
      subst e
      simp [firstHit, hu, placeOf]
    · have hne : u ≠ t := fun e => hu (e ▸ ht)
      have hmem' : t ∈ L := by
        rcases List.mem_cons.1 hmem with e | e
        · exact absurd e.symm hne
        · exact e
      simp only [firstHit, hu, if_false]
      rw [ih (c + 1) hmem' (fun v hv => huniq v (List.mem_cons_of_mem _ hv))]
      simp only [placeOf, hne, if_false]
      omega

theorem pred_mod (n s : Nat) (hs : s < n) :
    (s + n - 1) % n = if s = 0 then n - 1 else s - 1 := by
  split
  · next h => subst h; simp
  · next h =>
    have e : s + n - 1 = (s - 1) + n := by omega
    rw [e, Nat.add_mod_right, Nat.mod_eq_of_lt (by omega)]

theorem succ_mod (n s : Nat) (hs : s < n) :
    (s + 1) % n = if s + 1 = n then 0 else s + 1 := by
  split
  · next h => rw [h, Nat.mod_self]
  · next h => exact Nat.mod_eq_of_lt (by omega)

theorem pred_mod_inj (n s s' : Nat) (hs : s < n) (hs' : s' < n)
    (h : (s + n - 1) % n = (s' + n - 1) % n) : s = s' := by
  rw [pred_mod n s hs, pred_mod n s' hs'] at h
  split at h <;> split at h <;> omega

theorem succ_mod_inj (n s s' : Nat) (hs : s < n) (hs' : s' < n)
    (h : (s + 1) % n = (s' + 1) % n) : s = s' := by
  rw [succ_mod n s hs, succ_mod n s' hs'] at h
  split at h <;> split at h <;> omega

theorem placeOf_lt_length (t : Nat × Nat × Nat) :
    ∀ L : List (Nat × Nat × Nat), t ∈ L → placeOf t L < L.length := by
  intro L
  induction L with
  | nil => intro h; simp at h
  | cons u L ih =>
    intro h
    by_cases e : u = t
    · simp [placeOf, e]
    · have : t ∈ L := by
        rcases List.mem_cons.1 h with h | h
        · exact absurd h.symm e
        · exact h
      have := ih this
      simp only [placeOf, e, if_false, List.length_cons]
      omega

theorem getElem?_placeOf (t : Nat × Nat × Nat) :
    ∀ L : List (Nat × Nat × Nat), t ∈ L → L[placeOf t L]? = some t := by
  intro L
  induction L with
  | nil => intro h; simp at h
  | cons u L ih =>
    intro h
    by_cases e : u = t
    · simp [placeOf, e]
    · have : t ∈ L := by
        rcases List.mem_cons.1 h with h | h
        · exact absurd h.symm e
        · exact h
      simpa [placeOf, e] using ih this

/-- The three queries that name the canonical triple `(s, c, r)`: the triple itself, its
alias seen from side `s - 1` and its alias seen from side `s + 1`. -/
theorem aliasMatch_unique (n d s c r s' c' r' i j k : Nat)
    (hr : r < layers d) (hs : s < n) (h1 : r ≤ c) (h2 : c + r < d)
    (hs' : s' < n) (h1' : r' ≤ c') (h2' : c' + r' < d)
    (hq : (i = s ∧ j = c ∧ k = r) ∨ (i = (s + n - 1) % n ∧ j = d - r ∧ k = c) ∨
      (i = (s + 1) % n ∧ j = r ∧ k = d - c))
    (hm : aliasMatch n d i j k s' c' r') : s' = s ∧ c' = c ∧ r' = r := by
  unfold layers at hr
  unfold aliasMatch at hm
  rcases hq with ⟨rfl, rfl, rfl⟩ | ⟨rfl, rfl, rfl⟩ | ⟨rfl, rfl, rfl⟩
  · rcases hm with ⟨e1, e2, e3⟩ | ⟨_, e2, e3⟩ | ⟨_, e2, e3⟩
    · exact ⟨e1.symm, e2.symm, e3.symm⟩
    · omega
    · omega
  · rcases hm with ⟨_, e2, e3⟩ | ⟨e1, e2, e3⟩ | ⟨_, e2, e3⟩
    · omega
    · have := pred_mod_inj n s s' hs hs' e1
      omega
    · omega
  · rcases hm with ⟨_, e2, e3⟩ | ⟨_, e2, e3⟩ | ⟨e1, e2, e3⟩
    · omega
    · omega
    · have := succ_mod_inj n s s' hs hs' e1
      omega

/-- The index `findControlPoint` gives to a query that names the canonical triple
`(s, c, r)`: two more than the zero-based place of the triple among the visited ones. -/
theorem findControlPoint_of_names (n d s c r i j k : Nat) (hn : 1 ≤ n) (hd : 1 ≤ d)
    (hr : r < layers d) (hs : s < n) (h1 : r ≤ c) (h2 : c + r < d)
    (hq : (i = s ∧ j = c ∧ k = r) ∨ (i = (s + n - 1) % n ∧ j = d - r ∧ k = c) ∨
      (i = (s + 1) % n ∧ j = r ∧ k = d - c)) :
    findControlPoint n d (cp n d) i j k = placeOf (s, c, r) (visited n d) + 2 := by
  have hmem : (s, c, r) ∈ canonicalOrder n d := by
    rw [mem_canonicalOrder]; exact ⟨hr, hs, h1, h2⟩
  have hhit : aliasMatch n d i j k s c r := hq
  have huniq : ∀ u ∈ canonicalOrder n d, aliasMatch n d i j k u.1 u.2.1 u.2.2 → u = (s, c, r) := by
    intro u hu hm
    rw [mem_canonicalOrder] at hu
    obtain ⟨e1, e2, e3⟩ := aliasMatch_unique n d s c r u.1 u.2.1 u.2.2 i j k hr hs h1 h2
      hu.2.1 hu.2.2.1 hu.2.2.2 hq hm
    exact Prod.ext e1 (Prod.ext e2 e3)
  have hv : visitFrom n d (cp n d - 1) 0 0 0 = canonicalOrder n d :=
    visited_eq_canonicalOrder n d hn hd
  rw [findControlPoint, findLoop_eq_firstHit, hv, visited_eq_canonicalOrder n d hn hd,
    firstHit_of_unique n d i j k (s, c, r) hhit _ 1 hmem huniq]
  omega

/-! ### The store: distinct visited triples name distinct slots -/

theorem slot_of_mem_visited (n d : Nat) (hn : 1 ≤ n) (hd : 1 ≤ d) (t : Nat × Nat × Nat)
    (ht : t ∈ visited n d) : slot n d t.1 t.2.1 t.2.2 = placeOf t (visited n d) + 2 := by
  rw [visited_eq_canonicalOrder n d hn hd, mem_canonicalOrder] at ht
  exact findControlPoint_of_names n d t.1 t.2.1 t.2.2 _ _ _ hn hd ht.1 ht.2.1 ht.2.2.1
    ht.2.2.2 (Or.inl ⟨rfl, rfl, rfl⟩)

theorem slot_injOn_visited (n d : Nat) (hn : 1 ≤ n) (hd : 1 ≤ d) (t u : Nat × Nat × Nat)
    (ht : t ∈ visited n d) (hu : u ∈ visited n d)
    (h : slot n d t.1 t.2.1 t.2.2 = slot n d u.1 u.2.1 u.2.2) : t = u := by
  rw [slot_of_mem_visited n d hn hd t ht, slot_of_mem_visited n d hn hd u hu] at h
  have e : placeOf t (visited n d) = placeOf u (visited n d) := by omega
  have h1 := getElem?_placeOf t _ ht
  have h2 := getElem?_placeOf u _ hu
  rw [e, h2] at h1
  exact (Option.some.inj h1).symm

theorem vec3_eta {T : Type} (q : Point3D T) : (![q 0, q 1, q 2] : Point3D T) = q := by
  funext i
  fin_cases i <;> rfl

/-- Three numerals are read into the three coordinates. -/
theorem readPoint_complete {T D : Type} (get : T → D) (q : Point3D T) (rest : List T)
    (p : Point3D D) :
    readPoint get ([q 0, q 1, q 2] ++ rest) p = (![get (q 0), get (q 1), get (q 2)], rest) :=
  rfl

/-- An input that ends after one numeral changes the first coordinate only. -/
theorem readPoint_partial {T D : Type} (get : T → D) (t : T) (p : Point3D D) :
    readPoint get [t] p = (![get t, p 1, p 2], []) :=
  rfl

theorem foldl_saveBody {D T : Type} (put : D → T)
    (surf : SurfaceGeneralizedBezier (Point3D D)) :
    ∀ (L : List (Nat × Nat × Nat)) (out : List (Point3D T)),
      L.foldl (fun a t => saveBody put surf t.1 t.2.1 t.2.2 a) out
        = out ++ L.map fun t => writePoint put (surf.controlPoint t.1 t.2.1 t.2.2) := by
  intro L
  induction L with
  | nil => intro out; simp
  | cons t L ih =>
    intro out
    rw [List.foldl_cons, ih]
    simp [saveBody]

/-- The loop of `loadBezier` over triples that name pairwise distinct slots, on an input
with three numerals for each triple: sides, degree and central point are kept, every
triple's slot holds the point read for it, and no other slot changes. -/
theorem foldl_loadBody {T D : Type} (get : T → D) (n d : Nat) :
    ∀ (L : List (Nat × Nat × Nat)) (pts : List (Point3D T)) (rest : List T) (p : Point3D D)
      (surf : SurfaceGeneralizedBezier (Point3D D)),
      surf.n = n → surf.degree_ = d → L.length = pts.length →
      (L.map fun t => slot n d t.1 t.2.1 t.2.2).Nodup →
      ((L.foldl (fun a t => loadBody get t.1 t.2.1 t.2.2 a)
          ⟨(pts.flatMap fun q => [q 0, q 1, q 2]) ++ rest, p, surf⟩).surf.n = n ∧
       (L.foldl (fun a t => loadBody get t.1 t.2.1 t.2.2 a)
          ⟨(pts.flatMap fun q => [q 0, q 1, q 2]) ++ rest, p, surf⟩).surf.degree_ = d ∧
       (L.foldl (fun a t => loadBody get t.1 t.2.1 t.2.2 a)
          ⟨(pts.flatMap fun q => [q 0, q 1, q 2]) ++ rest, p, surf⟩).surf.central_cp_
          = surf.central_cp_ ∧
       (L.map fun t => (L.foldl (fun a t => loadBody get t.1 t.2.1 t.2.2 a)
          ⟨(pts.flatMap fun q => [q 0, q 1, q 2]) ++ rest, p, surf⟩).surf.net
            (slot n d t.1 t.2.1 t.2.2))
          = pts.map (fun q => ![get (q 0), get (q 1), get (q 2)]) ∧
       ∀ x, x ∉ (L.map fun t => slot n d t.1 t.2.1 t.2.2) →
         (L.foldl (fun a t => loadBody get t.1 t.2.1 t.2.2 a)
            ⟨(pts.flatMap fun q => [q 0, q 1, q 2]) ++ rest, p, surf⟩).surf.net x
           = surf.net x) := by
  intro L
  induction L with
  | nil =>
    intro pts rest p surf hn hd hlen _
    have : pts = [] := List.length_eq_zero.1 hlen.symm
    simp [hn, hd, this]
  | cons t L ih =>
    intro pts rest p surf hn hd hlen hnd
    cases pts with
    | nil => simp at hlen
    | cons q pts =>
      rw [List.map_cons, List.nodup_cons] at hnd
      have hstream : ((q :: pts).flatMap fun q => [q 0, q 1, q 2]) ++ rest
          = [q 0, q 1, q 2] ++ ((pts.flatMap fun q => [q 0, q 1, q 2]) ++ rest) := by
        simp
      have hstep : loadBody get t.1 t.2.1 t.2.2
            ⟨[q 0, q 1, q 2] ++ ((pts.flatMap fun q => [q 0, q 1, q 2]) ++ rest), p, surf⟩
          = ⟨(pts.flatMap fun q => [q 0, q 1, q 2]) ++ rest,
              ![get (q 0), get (q 1), get (q 2)],
              surf.setControlPoint t.1 t.2.1 t.2.2 ![get (q 0), get (q 1), get (q 2)]⟩ := rfl
      obtain ⟨i1, i2, i3, i4, i5⟩ := ih pts rest ![get (q 0), get (q 1), get (q 2)]
        (surf.setControlPoint t.1 t.2.1 t.2.2 ![get (q 0), get (q 1), get (q 2)]) hn hd
        (by simpa using hlen) hnd.2
      rw [hstream]
      simp only [List.foldl_cons, hstep]
      refine ⟨i1, i2, i3, ?_, ?_⟩
      · rw [List.map_cons, List.map_cons, i4, i5 _ hnd.1]
        simp [SurfaceGeneralizedBezier.setControlPoint, hn, hd]
      · intro x hx
        rw [List.map_cons, List.mem_cons, not_or] at hx
        rw [i5 x hx.2]
        simp [SurfaceGeneralizedBezier.setControlPoint, hn, hd, Function.update, hx.1]

theorem loadBezier_eq_foldl {T D : Type} [Inhabited D] (get : T → D) (file : BezierFile T)
    (name : String) :
    loadBezier get name (some file)
      = (((visited file.n file.d).foldl (fun a t => loadBody get t.1 t.2.1 t.2.2 a)
          ⟨(readPoint get file.stream default).2, (readPoint get file.stream default).1,
            (SurfaceGeneralizedBezier.empty.initNetwork file.n file.d).setCentralControlPoint
              (readPoint get file.stream default).1⟩).surf, []) := by
  simp only [loadBezier, SurfaceGeneralizedBezier.setupLoop, bezierLoop_eq_foldl, visited]

/-- The points `saveBezier` writes after the header: one for the centre and one for each
visited triple. -/
theorem saveBezier_points {D T : Type} (put : D → T)
    (surf : SurfaceGeneralizedBezier (Point3D D)) (name : String) :
    (saveBezier put surf name true).1
      = some ⟨surf.n, surf.degree_, writePoint put surf.central_cp_ ::
          (visited surf.n surf.degree_).map fun t =>
            writePoint put (surf.controlPoint t.1 t.2.1 t.2.2), []⟩ := by
  simp only [saveBezier, if_true, bezierLoop_eq_foldl, foldl_saveBody, visited]
  rfl

/-! ## The claims about `io.cc` -/

/-- What `saveBezier` writes for the surface `loadBezier` builds from a file with a central
point and exactly `cp - 1` further points: every numeral of the file, read by `operator>>`
and written again by `operator<<`, in the order of the file. -/
theorem saveBezier_loadBezier_written {T D : Type} [Inhabited D] (get : T → D) (put : D → T)
    (n d : Nat) (central : Point3D T) (pts : List (Point3D T)) (name₁ name₂ : String)
    (hn : 1 ≤ n) (hd : 1 ≤ d) (hlen : pts.length = cp n d - 1) :
    (saveBezier put (loadBezier get name₁ (some ⟨n, d, central :: pts, []⟩)).1 name₂ true).1
        = some ⟨n, d, (central :: pts).map fun q =>
            writePoint put ![get (q 0), get (q 1), get (q 2)], []⟩ ∧
    (loadBezier get name₁ (some ⟨n, d, central :: pts, []⟩)).1.n = n ∧
    (loadBezier get name₁ (some ⟨n, d, central :: pts, []⟩)).1.degree_ = d := by
  have hnd : ((visited n d).map fun t => slot n d t.1 t.2.1 t.2.2).Nodup := by
    refine List.Nodup.map_on ?_ ?_
    · intro t ht u hu h
      exact slot_injOn_visited n d hn hd t u ht hu h
    · rw [visited_eq_canonicalOrder n d hn hd]; exact nodup_canonicalOrder n d
  have hl : (visited n d).length = pts.length := by
    rw [visited_eq_canonicalOrder n d hn hd, length_canonicalOrder, hlen]
  obtain ⟨k1, k2, k3, k4, _⟩ := foldl_loadBody get n d (visited n d) pts []
    ![get (central 0), get (central 1), get (central 2)]
    ((SurfaceGeneralizedBezier.empty.initNetwork n d).setCentralControlPoint
      ![get (central 0), get (central 1), get (central 2)])
    rfl rfl hl hnd
  have hstream : (⟨n, d, central :: pts, []⟩ : BezierFile T).stream
      = [central 0, central 1, central 2]
        ++ ((pts.flatMap fun q => [q 0, q 1, q 2]) ++ []) := by
    simp [BezierFile.stream]
  have hload : (loadBezier get name₁ (some ⟨n, d, central :: pts, []⟩)).1
      = ((visited n d).foldl (fun a t => loadBody get t.1 t.2.1 t.2.2 a)
          ⟨(pts.flatMap fun q => [q 0, q 1, q 2]) ++ [],
            ![get (central 0), get (central 1), get (central 2)],
            (SurfaceGeneralizedBezier.empty.initNetwork n d).setCentralControlPoint
              ![get (central 0), get (central 1), get (central 2)]⟩).surf := by
    rw [loadBezier_eq_foldl, hstream, readPoint_complete]
  refine ⟨?_, ?_, ?_⟩
  · rw [hload, saveBezier_points]
    simp only [k1, k2, k3, SurfaceGeneralizedBezier.controlPoint, List.map_cons]
    have e : ((visited n d).map fun t =>
        writePoint put (((visited n d).foldl (fun a t => loadBody get t.1 t.2.1 t.2.2 a)
          ⟨(pts.flatMap fun q => [q 0, q 1, q 2]) ++ [],
            ![get (central 0), get (central 1), get (central 2)],
            (SurfaceGeneralizedBezier.empty.initNetwork n d).setCentralControlPoint
              ![get (central 0), get (central 1), get (central 2)]⟩).surf.net
            (slot n d t.1 t.2.1 t.2.2)))
        = pts.map fun q => writePoint put ![get (q 0), get (q 1), get (q 2)] := by
      have := congrArg (List.map (writePoint put)) k4
      simpa [List.map_map, Function.comp_def] using this
    rw [e]
    rfl
  · rw [hload]; exact k1
  · rw [hload]; exact k2

theorem roundHalfEven_intCast (m : ℤ) : roundHalfEven (m : ℚ) = m := by
  simp [roundHalfEven]

/-- An integer with at most `p` digits in base `b` is not changed by `roundSig b p`. -/
theorem roundSig_intCast (b p : Nat) (hb : 1 < b) (k : ℤ) (hk : |k| < (b : ℤ) ^ p) :
    roundSig b p (k : ℚ) = k := by
  by_cases h0 : k = 0
  · simp [roundSig, h0]
  · have hq : (k : ℚ) ≠ 0 := by exact_mod_cast h0
    have hpos : (0 : ℚ) < |(k : ℚ)| := abs_pos.2 hq
    have hlt : |(k : ℚ)| < (b : ℚ) ^ ((p : Nat) : ℤ) := by
      rw [zpow_natCast]
      exact_mod_cast hk
    have he : Int.log b |(k : ℚ)| < (p : ℤ) := (Int.lt_zpow_iff_log_lt hb hpos).1 hlt
    obtain ⟨m, hm⟩ : ∃ m : Nat, Int.log b |(k : ℚ)| + 1 - (p : ℤ) = -(m : ℤ) :=
      ⟨((p : ℤ) - (Int.log b |(k : ℚ)| + 1)).toNat, by
        rw [Int.toNat_of_nonneg (by omega)]; omega⟩
    have hb0 : (b : ℚ) ≠ 0 := by
      have : 0 < b := by omega
      exact_mod_cast this.ne'
    have hdiv : (k : ℚ) / ((b : ℚ) ^ m)⁻¹ = ((k * (b : ℤ) ^ m : ℤ) : ℚ) := by
      push_cast
      field_simp
    simp only [roundSig, if_neg hq, hm, zpow_neg, zpow_natCast, hdiv, roundHalfEven_intCast]
    push_cast
    field_simp

/-- An integer of at most six decimal digits is read and written back unchanged. -/
theorem insertDouble_extractDouble_int (k : ℤ) (hk : |k| < 10 ^ 6) :
    insertDouble (extractDouble (k : ℚ)) = k := by
  have h2 : |k| < ((2 : Nat) : ℤ) ^ 53 := by
    have : (10 : ℤ) ^ 6 < ((2 : Nat) : ℤ) ^ 53 := by norm_num
    omega
  have h10 : |k| < ((10 : Nat) : ℤ) ^ 6 := by simpa using hk
  rw [extractDouble, roundSig_intCast 2 53 (by norm_num) k h2, insertDouble,
    roundSig_intCast 10 6 (by norm_num) k h10]

/-- The number `1234567` is a `double`; written at six significant digits it becomes
`1234570` (the text `1.23457e+06`). -/
theorem insertDouble_extractDouble_1234567 :
    insertDouble (extractDouble 1234567) = 1234570 := by
  have hd : extractDouble 1234567 = 1234567 := by
    have h := roundSig_intCast 2 53 (by norm_num) 1234567 (by norm_num)
    simpa [extractDouble] using h
  have ha : |(1234567 : ℚ)| = 1234567 := abs_of_pos (by norm_num)
  have hlog : Int.log 10 (1234567 : ℚ) = 6 := by
    have h : ((1234567 : Nat) : ℚ) = 1234567 := by norm_num
    rw [← h, Int.log_natCast,
      Nat.log_eq_of_pow_le_of_lt_pow (m := 6) (by norm_num) (by norm_num)]
    rfl
  have hf : roundHalfEven ((1234567 : ℚ) / 10) = 123457 := by
    have hfl : ⌊(1234567 : ℚ) / 10⌋ = 123456 := by
      rw [Int.floor_eq_iff]; constructor <;> norm_num
    simp only [roundHalfEven, hfl]
    norm_num
  rw [hd]
  simp only [insertDouble, roundSig, ha, hlog]
  norm_num [hf]

/-- C1, the claim as stated fails: a file with the header `3 1`, the central point
`1234567 0 0` and three further points `0 0 0` is loaded and saved with the central point
`1234570 0 0` (written `1.23457e+06 0 0`), which is another point. -/
theorem saveBezier_loadBezier_counterexample :
    (saveBezier insertDouble
        (loadBezier extractDouble "in" (some
          ⟨3, 1, [![1234567, 0, 0], ![0, 0, 0], ![0, 0, 0], ![0, 0, 0]], []⟩)).1 "out" true).1
      = some ⟨3, 1, [![1234570, 0, 0], ![0, 0, 0], ![0, 0, 0], ![0, 0, 0]], []⟩ ∧
    (saveBezier insertDouble
        (loadBezier extractDouble "in" (some
          ⟨3, 1, [![1234567, 0, 0], ![0, 0, 0], ![0, 0, 0], ![0, 0, 0]], []⟩)).1 "out" true).1
      ≠ some ⟨3, 1, [![1234567, 0, 0], ![0, 0, 0], ![0, 0, 0], ![0, 0, 0]], []⟩ := by
  have h0 : insertDouble (extractDouble 0) = 0 := by
    simpa using insertDouble_extractDouble_int 0 (by norm_num)
  have h := (saveBezier_loadBezier_written extractDouble insertDouble 3 1
    ![1234567, 0, 0] [![0, 0, 0], ![0, 0, 0], ![0, 0, 0]] "in" "out" (by decide) (by decide)
    (by decide)).1
  have e : (saveBezier insertDouble
        (loadBezier extractDouble "in" (some
          ⟨3, 1, [![1234567, 0, 0], ![0, 0, 0], ![0, 0, 0], ![0, 0, 0]], []⟩)).1 "out" true).1
      = some ⟨3, 1, [![1234570, 0, 0], ![0, 0, 0], ![0, 0, 0], ![0, 0, 0]], []⟩ := by
    rw [h]
    simp [writePoint, h0, insertDouble_extractDouble_1234567]
  refine ⟨e, ?_⟩
  rw [e]
  intro hne
  have h1 := congrArg BezierFile.points (Option.some.inj hne)
  have h2 := congrFun (List.cons.inj h1).1 0
  norm_num at h2

/-- C1 as amended: round trip of the control-net file.  For `n ≥ 1`, `d ≥ 1` and a file
made of the header `(n, d)`, a central point and exactly `cp - 1` further points, every
coordinate of which is written back unchanged by `operator<<` after being read by
`operator>>`, `saveBezier` applied to the surface built by `loadBezier` writes the same
`n`, the same `d`, the same central point and the same `cp - 1` points in the same order;
the loaded surface has `n` sides and degree `d` (so both loops run over the same triples),
and no two visited triples name the same storage slot. -/
theorem saveBezier_loadBezier {T D : Type} [Inhabited D] (get : T → D) (put : D → T)
    (n d : Nat) (central : Point3D T) (pts : List (Point3D T)) (name₁ name₂ : String)
    (hn : 1 ≤ n) (hd : 1 ≤ d) (hlen : pts.length = cp n d - 1)
    (hkeep : ∀ q ∈ central :: pts, ∀ i : Fin 3, put (get (q i)) = q i) :
    (saveBezier put (loadBezier get name₁ (some ⟨n, d, central :: pts, []⟩)).1 name₂ true).1
        = some ⟨n, d, central :: pts, []⟩ ∧
    (loadBezier get name₁ (some ⟨n, d, central :: pts, []⟩)).1.n = n ∧
    (loadBezier get name₁ (some ⟨n, d, central :: pts, []⟩)).1.degree_ = d ∧
    (∀ t ∈ visited n d, ∀ u ∈ visited n d,
        slot n d t.1 t.2.1 t.2.2 = slot n d u.1 u.2.1 u.2.2 → t = u) := by
  obtain ⟨h1, h2, h3⟩ := saveBezier_loadBezier_written get put n d central pts name₁ name₂
    hn hd hlen
  refine ⟨?_, h2, h3, fun t ht u hu h => slot_injOn_visited n d hn hd t u ht hu h⟩
  rw [h1]
  have e : ((central :: pts).map fun q => writePoint put ![get (q 0), get (q 1), get (q 2)])
      = central :: pts := by
    have : ∀ q ∈ central :: pts,
        writePoint put ![get (q 0), get (q 1), get (q 2)] = id q := by
      intro q hq
      have hk := hkeep q hq
      simp only [writePoint, Matrix.cons_val_zero, Matrix.cons_val_one, Matrix.head_cons,
        Matrix.cons_val_two, Matrix.tail_cons, hk, id]
      exact vec3_eta q
    rw [List.map_congr_left this, List.map_id]
  rw [e]

/-- Witness of the amended C1: a triangle patch of degree 1 whose coordinates are integers
of one digit. -/
theorem saveBezier_loadBezier_witness :
    (saveBezier insertDouble
        (loadBezier extractDouble "in" (some
          ⟨3, 1, [![1, 1, 2], ![0, 0, 0], ![2, 0, 0], ![0, 2, 1]], []⟩)).1 "out" true).1
      = some ⟨3, 1, [![1, 1, 2], ![0, 0, 0], ![2, 0, 0], ![0, 2, 1]], []⟩ := by
  have h0 : insertDouble (extractDouble 0) = 0 := by
    simpa using insertDouble_extractDouble_int 0 (by norm_num)
  have h1 : insertDouble (extractDouble 1) = 1 := by
    simpa using insertDouble_extractDouble_int 1 (by norm_num)
  have h2 : insertDouble (extractDouble 2) = 2 := by
    simpa using insertDouble_extractDouble_int 2 (by norm_num)
  refine (saveBezier_loadBezier extractDouble insertDouble 3 1 ![1, 1, 2]
    [![0, 0, 0], ![2, 0, 0], ![0, 2, 1]] "in" "out" (by decide) (by decide) (by decide)
    ?_).1
  intro q hq i
  simp only [List.mem_cons, List.mem_singleton, List.not_mem_nil, or_false] at hq
  rcases hq with rfl | rfl | rfl | rfl <;> fin_cases i <;> simp [h0, h1, h2]

/-- C2: canonical flat ordering.  For `n ≥ 1` and `d ≥ 1` the loop
`for (i = 1, side = 0, col = 0, row = 0; i < cp; ++i, ++col)` runs its body on the visited
triples in turn, and these are exactly the triples with `row < l`, `side < n` and
`row ≤ col ≤ d - row - 1`, each once, in increasing lexicographic order of
`(row, side, col)`: the rows from `0` upward, in each row the sides `0 … n - 1`, for each
side the columns `row … d - row - 1`.  Row `row` contributes `n * (d - 2 * row)` triples
and the `cp - 1` iterations end exactly with the last row. -/
theorem bezierLoop_canonical (n d : Nat) (hn : 1 ≤ n) (hd : 1 ≤ d) :
    (∀ (σ : Type) (body : Nat → Nat → Nat → σ → σ) (acc : σ),
        bezierLoop n d body (cp n d - 1) 0 0 0 acc
          = (visited n d).foldl (fun a t => body t.1 t.2.1 t.2.2 a) acc) ∧
    visited n d = canonicalOrder n d ∧
    (∀ side col row, (side, col, row) ∈ visited n d ↔
        (row < layers d ∧ side < n ∧ row ≤ col ∧ col ≤ d - row - 1)) ∧
    (visited n d).Nodup ∧
    (visited n d).Pairwise rowSideColLt ∧
    (∀ row, row < layers d →
        ((visited n d).filter fun t => decide (t.2.2 = row)).length = n * (d - 2 * row)) ∧
    (visited n d).length = cp n d - 1 := by
  have hv := visited_eq_canonicalOrder n d hn hd
  refine ⟨fun σ body acc => bezierLoop_eq_foldl n d body _ _ _ _ acc, hv, ?_, ?_, ?_, ?_, ?_⟩
  · intro side col row
    rw [hv, mem_canonicalOrder]
    simp only [layers]
    constructor
    · rintro ⟨h1, h2, h3, h4⟩; exact ⟨h1, h2, h3, by omega⟩
    · rintro ⟨h1, h2, h3, h4⟩; exact ⟨h1, h2, h3, by omega⟩
  · rw [hv]; exact nodup_canonicalOrder n d
  · rw [hv]; exact pairwise_canonicalOrder n d
  · intro row hrow
    rw [hv, canonicalOrder,
      filter_rows n d row _ (List.nodup_range _) (List.mem_range.2 hrow), length_rowRun]
  · rw [hv, length_canonicalOrder]

/-- Witness of C2: the twelve visits of a triangle patch of degree 3. -/
theorem bezierLoop_canonical_witness :
    visited 3 3 = [(0, 0, 0), (0, 1, 0), (0, 2, 0), (1, 0, 0), (1, 1, 0), (1, 2, 0),
      (2, 0, 0), (2, 1, 0), (2, 2, 0), (0, 1, 1), (1, 1, 1), (2, 1, 1)] :=
  (bezierLoop_canonical 3 3 (by decide) (by decide)).2.1.trans (by decide)

/-- C3: alias resolution.  For `n ≥ 3`, `d ≥ 1` and a canonical triple `(side, col, row)`
of the traversal, `findControlPoint` gives one and the same index to the triple, to its
alias `((side - 1 + n) mod n, d - row, col)` and to its alias
`((side + 1) mod n, row, d - col)`: the one-based position of `(side, col, row)` in the
flat order that starts with the central point, that is two more than its zero-based place
among the visited triples. -/
theorem findControlPoint_aliases (n d side col row : Nat) (hn : 3 ≤ n) (hd : 1 ≤ d)
    (hside : side < n) (hrow : row < layers d) (h1 : row ≤ col) (h2 : col ≤ d - row - 1) :
    findControlPoint n d (cp n d) side col row = placeOf (side, col, row) (visited n d) + 2 ∧
    findControlPoint n d (cp n d) ((side + n - 1) % n) (d - row) col
      = placeOf (side, col, row) (visited n d) + 2 ∧
    findControlPoint n d (cp n d) ((side + 1) % n) row (d - col)
      = placeOf (side, col, row) (visited n d) + 2 ∧
    (visited n d)[placeOf (side, col, row) (visited n d)]? = some (side, col, row) := by
  have h2' : col + row < d := by unfold layers at hrow; omega
  have hmem : (side, col, row) ∈ visited n d := by
    rw [visited_eq_canonicalOrder n d (by omega) hd, mem_canonicalOrder]
    exact ⟨hrow, hside, h1, h2'⟩
  exact ⟨findControlPoint_of_names n d side col row _ _ _ (by omega) hd hrow hside h1 h2'
      (Or.inl ⟨rfl, rfl, rfl⟩),
    findControlPoint_of_names n d side col row _ _ _ (by omega) hd hrow hside h1 h2'
      (Or.inr (Or.inl ⟨rfl, rfl, rfl⟩)),
    findControlPoint_of_names n d side col row _ _ _ (by omega) hd hrow hside h1 h2'
      (Or.inr (Or.inr ⟨rfl, rfl, rfl⟩)),
    getElem?_placeOf _ _ hmem⟩

/-- Witness of C3: side 1, column 0, row 0 of a triangle patch of degree 3 is vertex 5,
also as `(0, 3, 0)` and as `(2, 0, 3)`. -/
theorem findControlPoint_aliases_witness :
    findControlPoint 3 3 (cp 3 3) 1 0 0 = 5 ∧ findControlPoint 3 3 (cp 3 3) 0 3 0 = 5 ∧
    findControlPoint 3 3 (cp 3 3) 2 0 3 = 5 := by
  have h := findControlPoint_aliases 3 3 1 0 0 (by decide) (by decide) (by decide)
    (by decide) (by decide) (by decide)
  have e : placeOf (1, 0, 0) (visited 3 3) + 2 = 5 := by decide
  exact ⟨h.1.trans e, h.2.1.trans e, h.2.2.1.trans e⟩

/-- C4: seam-sharing invariant.  For `n ≥ 3`, `d ≥ 1`, a side `i < n` and a row `r < l`,
`findControlPoint` resolves `(i, d - r, r)` and `((i + 1) mod n, r, r)` to the same
index, and this index is a control-point index: not `0`, at least `2` (index `1` is the
central point) and at most `cp`. -/
theorem findControlPoint_seam (n d i r : Nat) (hn : 3 ≤ n) (hd : 1 ≤ d) (hi : i < n)
    (hr : r < layers d) :
    findControlPoint n d (cp n d) i (d - r) r
      = findControlPoint n d (cp n d) ((i + 1) % n) r r ∧
    findControlPoint n d (cp n d) i (d - r) r ≠ 0 ∧
    2 ≤ findControlPoint n d (cp n d) i (d - r) r ∧
    findControlPoint n d (cp n d) i (d - r) r ≤ cp n d := by
  have hlt : (i + 1) % n < n := Nat.mod_lt _ (by omega)
  have h2 : r + r < d := by unfold layers at hr; omega
  have hback : ((i + 1) % n + n - 1) % n = i := by
    rw [succ_mod n i hi]
    split
    · next h => simp; omega
    · next h =>
      have e : i + 1 + n - 1 = i + n := by omega
      rw [e, Nat.add_mod_right, Nat.mod_eq_of_lt hi]
  have ha := findControlPoint_of_names n d ((i + 1) % n) r r i (d - r) r (by omega) hd hr hlt
    (le_refl r) h2 (Or.inr (Or.inl ⟨hback.symm, rfl, rfl⟩))
  have hb := findControlPoint_of_names n d ((i + 1) % n) r r ((i + 1) % n) r r (by omega) hd hr
    hlt (le_refl r) h2 (Or.inl ⟨rfl, rfl, rfl⟩)
  have hmem : ((i + 1) % n, r, r) ∈ visited n d := by
    rw [visited_eq_canonicalOrder n d (by omega) hd, mem_canonicalOrder]
    exact ⟨hr, hlt, le_refl r, h2⟩
  have hp := placeOf_lt_length _ _ hmem
  have hlen : (visited n d).length = cp n d - 1 := by
    rw [visited_eq_canonicalOrder n d (by omega) hd, length_canonicalOrder]
  have hcp : 1 ≤ cp n d := by unfold cp; omega
  rw [ha, hb]
  refine ⟨rfl, ?_, ?_, ?_⟩ <;> omega

/-- Witness of C4: in a triangle patch of degree 3 the seam point `(2, 3, 0)` of side 2 is
the corner `(0, 0, 0)` of side 0, vertex 2. -/
theorem findControlPoint_seam_witness :
    findControlPoint 3 3 (cp 3 3) 2 (3 - 0) 0 = findControlPoint 3 3 (cp 3 3) ((2 + 1) % 3) 0 0 :=
  (findControlPoint_seam 3 3 2 0 (by decide) (by decide) (by decide) (by decide)).1

/-! ### The number of control points -/

theorem length_visitFrom (n d : Nat) :
    ∀ (fuel side col row : Nat), (visitFrom n d fuel side col row).length = fuel := by
  intro fuel
  induction fuel with
  | zero => intros; rfl
  | succ fuel ih => intro side col row; simp [visitFrom, ih]

theorem length_visited (n d : Nat) : (visited n d).length = cp n d - 1 :=
  length_visitFrom n d _ 0 0 0

theorem sum_range_rowLengths (n d m : Nat) :
    ∑ row ∈ Finset.range m, n * (d - 2 * row)
      = ((List.range m).map fun r => n * (d - 2 * r)).sum := by
  induction m with
  | zero => simp
  | succ m ih => rw [Finset.sum_range_succ, ih, List.range_succ]; simp

/-- C11: the control-point count of `loadBezier` and `saveBezier` for `n` sides and degree
`d` is `cp = n * (1 + ⌊d / 2⌋) * l + 1` with `l = ⌊(d + 1) / 2⌋`; it is `1` plus the sum
over the rows `0 … l - 1` of `n * (d - 2 * row)`; it is the number of points `saveBezier`
writes after the header, and one more than the number of iterations of the loop; for
`n = 3`, `d = 3` it is `13`. -/
theorem cp_count (n d : Nat) :
    cp n d = n * (1 + d / 2) * ((d + 1) / 2) + 1 ∧
    cp n d = 1 + ∑ row ∈ Finset.range ((d + 1) / 2), n * (d - 2 * row) ∧
    (visited n d).length + 1 = cp n d ∧
    (∀ (D T : Type) (put : D → T) (surf : SurfaceGeneralizedBezier (Point3D D))
        (name : String), surf.n = n → surf.degree_ = d →
        ∃ file, (saveBezier put surf name true).1 = some file ∧
          file.points.length = cp n d) ∧
    cp 3 3 = 13 := by
  have hcp : 1 ≤ cp n d := by unfold cp; omega
  refine ⟨rfl, ?_, ?_, ?_, by decide⟩
  · have h := length_canonicalOrder n d
    have hlen : (canonicalOrder n d).length
        = ((List.range (layers d)).map fun r => n * (d - 2 * r)).sum := by
      simp [canonicalOrder, Function.comp_def, length_rowRun]
    rw [sum_range_rowLengths]
    unfold layers at h hlen
    omega
  · rw [length_visited]; omega
  · intro D T put surf name hn hd
    refine ⟨_, saveBezier_points put surf name, ?_⟩
    simp only [List.length_cons, List.length_map, hn, hd, length_visited]
    omega

/-- Witness of C11: a surface with three sides and degree 3 is saved with 13 points. -/
theorem cp_count_witness :
    ∃ file, (saveBezier insertDouble
        (⟨3, 3, ![0, 0, 0], fun _ => ![0, 0, 0]⟩ : SurfaceGeneralizedBezier (Point3D ℚ))
        "out" true).1 = some file ∧ file.points.length = cp 3 3 :=
  (cp_count 3 3).2.2.2.1 ℚ ℚ insertDouble ⟨3, 3, ![0, 0, 0], fun _ => ![0, 0, 0]⟩ "out" rfl rfl

/-- C12, the claim as stated fails: for `n = 4`, `d = 2` the count computed by the code is
not `5`. -/
theorem cp_quad_counterexample : cp 4 2 ≠ 5 := by decide

/-- C12 as amended: for the quad patch `n = 4`, `d = 2` the count is `9`, the central
point and the eight points of row `0`, two for each side. -/
theorem cp_quad :
    cp 4 2 = 9 ∧
    visited 4 2 = [(0, 0, 0), (0, 1, 0), (1, 0, 0), (1, 1, 0), (2, 0, 0), (2, 1, 0),
      (3, 0, 0), (3, 1, 0)] := by
  constructor <;> decide

/-! ### `loadBezier` on an input with too few or too many points -/

theorem foldl_loadBody_shape {T D : Type} (get : T → D) :
    ∀ (L : List (Nat × Nat × Nat)) (s : LoadState T D),
      (L.foldl (fun a t => loadBody get t.1 t.2.1 t.2.2 a) s).surf.n = s.surf.n ∧
      (L.foldl (fun a t => loadBody get t.1 t.2.1 t.2.2 a) s).surf.degree_ = s.surf.degree_ ∧
      (L.foldl (fun a t => loadBody get t.1 t.2.1 t.2.2 a) s).surf.central_cp_
        = s.surf.central_cp_ := by
  intro L
  induction L with
  | nil => intro s; exact ⟨rfl, rfl, rfl⟩
  | cons t L ih =>
    intro s
    simp only [List.foldl_cons]
    obtain ⟨h1, h2, h3⟩ := ih (loadBody get t.1 t.2.1 t.2.2 s)
    exact ⟨h1, h2, h3⟩

/-- C13, the claim as stated fails: a file with the header `3 1` and the four numerals
`7 5 4 9`, where the four points required have twelve, ends inside its second point;
`loadBezier` reports nothing and returns a surface with three sides, degree 1, the
central point `(7, 5, 4)` and the three control points `(9, 5, 4)`. -/
theorem loadBezier_short_counterexample :
    cp 3 1 = 4 ∧
    (⟨3, 1, [![7, 5, 4]], [9]⟩ : BezierFile ℚ).stream = [7, 5, 4, 9] ∧
    (loadBezier extractDouble "in" (some ⟨3, 1, [![7, 5, 4]], [9]⟩)).2 = [] ∧
    (loadBezier extractDouble "in" (some ⟨3, 1, [![7, 5, 4]], [9]⟩)).1.n = 3 ∧
    (loadBezier extractDouble "in" (some ⟨3, 1, [![7, 5, 4]], [9]⟩)).1.degree_ = 1 ∧
    (loadBezier extractDouble "in" (some ⟨3, 1, [![7, 5, 4]], [9]⟩)).1.central_cp_
      = ![7, 5, 4] ∧
    (visited 3 1).map (fun t =>
        (loadBezier extractDouble "in" (some ⟨3, 1, [![7, 5, 4]], [9]⟩)).1.controlPoint
          t.1 t.2.1 t.2.2)
      = [![9, 5, 4], ![9, 5, 4], ![9, 5, 4]] := by
  have h9 : extractDouble 9 = 9 := by
    simpa [extractDouble] using roundSig_intCast 2 53 (by norm_num) 9 (by norm_num)
  have hv : visited 3 1 = [(0, 0, 0), (1, 0, 0), (2, 0, 0)] := by decide
  have s0 : slot 3 1 0 0 0 = 2 := by decide
  have s1 : slot 3 1 1 0 0 = 3 := by decide
  have s2 : slot 3 1 2 0 0 = 4 := by decide
  have h7 : extractDouble 7 = 7 := by
    simpa [extractDouble] using roundSig_intCast 2 53 (by norm_num) 7 (by norm_num)
  have h5 : extractDouble 5 = 5 := by
    simpa [extractDouble] using roundSig_intCast 2 53 (by norm_num) 5 (by norm_num)
  have h4 : extractDouble 4 = 4 := by
    simpa [extractDouble] using roundSig_intCast 2 53 (by norm_num) 4 (by norm_num)
  have hs : (⟨3, 1, [![7, 5, 4]], [9]⟩ : BezierFile ℚ).stream = [7, 5, 4, 9] := by
    simp [BezierFile.stream]
  refine ⟨by decide, hs, ?_, ?_, ?_, ?_, ?_⟩
  · rw [loadBezier_eq_foldl]
  · rw [loadBezier_eq_foldl]
    exact (foldl_loadBody_shape extractDouble (visited 3 1) _).1
  · rw [loadBezier_eq_foldl]
    exact (foldl_loadBody_shape extractDouble (visited 3 1) _).2.1
  · rw [loadBezier_eq_foldl]
    rw [(foldl_loadBody_shape extractDouble (visited 3 1) _).2.2]
    simp only [hs]
    simp [SurfaceGeneralizedBezier.setCentralControlPoint, readPoint, readDouble, h7, h5, h4]
  · rw [loadBezier_eq_foldl]
    simp only [hs, hv]
    simp [loadBody, readPoint, readDouble, SurfaceGeneralizedBezier.setControlPoint,
      SurfaceGeneralizedBezier.controlPoint, SurfaceGeneralizedBezier.initNetwork,
      SurfaceGeneralizedBezier.setCentralControlPoint, SurfaceGeneralizedBezier.empty,
      s0, s1, s2, Function.update, h7, h5, h4, h9]

/-- C13 as amended: `loadBezier` does not compare the number of points supplied with `cp`:
whatever numerals follow the header `(n, d)`, fewer or more than the `cp` points required,
also when the input ends before `cp` points have been read, it reports nothing and returns
a surface with `n` sides and degree `d`. -/
theorem loadBezier_any_count {T D : Type} [Inhabited D] (get : T → D) (n d : Nat)
    (points : List (Point3D T)) (rest : List T) (name : String) :
    (loadBezier get name (some ⟨n, d, points, rest⟩)).2 = [] ∧
    (loadBezier get name (some ⟨n, d, points, rest⟩)).1.n = n ∧
    (loadBezier get name (some ⟨n, d, points, rest⟩)).1.degree_ = d := by
  refine ⟨?_, ?_, ?_⟩
  · rw [loadBezier_eq_foldl]
  · rw [loadBezier_eq_foldl]
    exact (foldl_loadBody_shape get (visited n d) _).1
  · rw [loadBezier_eq_foldl]
    exact (foldl_loadBody_shape get (visited n d) _).2.1

/-! ### The mesh export -/

/-- C14, at the failing input: when its file cannot be opened, `writeBezierControlPoints`
writes nothing and reports nothing, while `saveBezier` and `loadBezier` report
`Unable to open file: ` followed by the file name. -/
theorem writeBezierControlPoints_unopened {T D : Type} [Inhabited D] (get : T → D)
    (put : D → T) (surf : SurfaceGeneralizedBezier (Point3D D)) (name : String) :
    writeBezierControlPoints put surf name false = (none, []) ∧
    saveBezier put surf name false = (none, ["Unable to open file: " ++ name]) ∧
    loadBezier get name (none : Option (BezierFile T))
      = (SurfaceGeneralizedBezier.empty, ["Unable to open file: " ++ name]) :=
  ⟨rfl, rfl, rfl⟩

theorem placeOf_of_getElem? (t : Nat × Nat × Nat) :
    ∀ (L : List (Nat × Nat × Nat)) (i : Nat), L.Nodup → L[i]? = some t → placeOf t L = i := by
  intro L
  induction L with
  | nil => intro i _ h; simp at h
  | cons u L ih =>
    intro i hnd h
    rw [List.nodup_cons] at hnd
    cases i with
    | zero =>
      have e : u = t := by simpa using h
      simp [placeOf, e]
    | succ i =>
      have h' : L[i]? = some t := by simpa using h
      have hmem : t ∈ L := List.getElem?_mem h'
      have hne : u ≠ t := fun e => hnd.1 (e ▸ hmem)
      simp only [placeOf, hne, if_false]
      rw [ih i hnd.2 h']

/-- The content `writeBezierControlPoints` writes to a file that could be opened. -/
theorem writeBezierControlPoints_opened {D T : Type} (put : D → T)
    (surf : SurfaceGeneralizedBezier (Point3D D)) (name : String) :
    (writeBezierControlPoints put surf name true).1
      = some ⟨writePoint put surf.central_cp_ ::
            (visited surf.n surf.degree_).map fun t =>
              writePoint put (surf.controlPoint t.1 t.2.1 t.2.2),
          quadFaces surf.n surf.degree_ (layers surf.degree_)
              (findControlPoint surf.n surf.degree_ (cp surf.n surf.degree_))
            ++ ringFaces surf.n surf.degree_ (layers surf.degree_)
              (findControlPoint surf.n surf.degree_ (cp surf.n surf.degree_))⟩ := by
  simp only [writeBezierControlPoints, if_true, bezierLoop_eq_foldl, foldl_saveBody,
    SurfaceGeneralizedBezier.layers]
  rfl

/-- C15: no seam vertex is duplicated in the mesh export.  For `n ≥ 1`, `d ≥ 1` and `c` in
`1 … cp - 1`, `findControlPoint` applied to the `c`-th triple of the traversal returns
`c + 1`; this is the one-based number of the `v` line written for that triple (the central
point is vertex 1); and the triple matches, directly or through an alias pattern, no
triple visited before it. -/
theorem findControlPoint_own_vertex (n d c : Nat) (hn : 1 ≤ n) (hd : 1 ≤ d) (h1 : 1 ≤ c)
    (h2 : c ≤ cp n d - 1) :
    ∃ t : Nat × Nat × Nat, (visited n d)[c - 1]? = some t ∧
      findControlPoint n d (cp n d) t.1 t.2.1 t.2.2 = c + 1 ∧
      (∀ (c' : Nat) (u : Nat × Nat × Nat), c' < c - 1 → (visited n d)[c']? = some u →
        ¬ aliasMatch n d t.1 t.2.1 t.2.2 u.1 u.2.1 u.2.2) ∧
      (∀ (D T : Type) (put : D → T) (surf : SurfaceGeneralizedBezier (Point3D D))
        (name : String), surf.n = n → surf.degree_ = d →
        ∃ mesh, (writeBezierControlPoints put surf name true).1 = some mesh ∧
          mesh.vertices.length = cp n d ∧
          mesh.vertices[c]? = some (writePoint put (surf.controlPoint t.1 t.2.1 t.2.2))) := by
  have hlen := length_visited n d
  have hv := visited_eq_canonicalOrder n d hn hd
  have hnd : (visited n d).Nodup := by rw [hv]; exact nodup_canonicalOrder n d
  have hc : c - 1 < (visited n d).length := by omega
  refine ⟨(visited n d)[c - 1], List.getElem?_eq_getElem hc, ?_, ?_, ?_⟩
  · have hmem : (visited n d)[c - 1] ∈ visited n d := List.getElem_mem hc
    have hs := slot_of_mem_visited n d hn hd _ hmem
    rw [placeOf_of_getElem? _ _ _ hnd (List.getElem?_eq_getElem hc)] at hs
    rw [slot] at hs
    omega
  · intro c' u hc' hu hm
    have hmem : (visited n d)[c - 1] ∈ visited n d := List.getElem_mem hc
    have hmem' : (visited n d)[c - 1] ∈ canonicalOrder n d := hv ▸ hmem
    have humem : u ∈ canonicalOrder n d := hv ▸ List.getElem?_mem hu
    rw [mem_canonicalOrder] at hmem' humem
    obtain ⟨e1, e2, e3⟩ := aliasMatch_unique n d _ _ _ u.1 u.2.1 u.2.2 _ _ _ hmem'.1
      hmem'.2.1 hmem'.2.2.1 hmem'.2.2.2 humem.2.1 humem.2.2.1 humem.2.2.2
      (Or.inl ⟨rfl, rfl, rfl⟩) hm
    have e : u = (visited n d)[c - 1] := Prod.ext e1 (Prod.ext e2 e3)
    have p1 := placeOf_of_getElem? _ _ _ hnd hu
    have p2 := placeOf_of_getElem? _ _ _ hnd (List.getElem?_eq_getElem hc)
    rw [e, p2] at p1
    omega
  · intro D T put surf name hsn hsd
    refine ⟨_, writeBezierControlPoints_opened put surf name, ?_, ?_⟩
    · simp only [List.length_cons, List.length_map, hsn, hsd, hlen]
      omega
    · obtain ⟨m, rfl⟩ : ∃ m, c = m + 1 := ⟨c - 1, by omega⟩
      have hm : m < (visited n d).length := by omega
      simp only [hsn, hsd, List.getElem?_cons_succ, List.getElem?_map, Nat.add_sub_cancel,
        List.getElem?_eq_getElem hm, Option.map_some']

/-- Witness of C15: in a triangle patch of degree 3 the fourth visited triple is found as
vertex 5. -/
theorem findControlPoint_own_vertex_witness :
    ∃ t : Nat × Nat × Nat, (visited 3 3)[4 - 1]? = some t ∧
      findControlPoint 3 3 (cp 3 3) t.1 t.2.1 t.2.2 = 4 + 1 := by
  obtain ⟨t, h1, h2, _⟩ := findControlPoint_own_vertex 3 3 4 (by decide) (by decide)
    (by decide) (by decide)
  exact ⟨t, h1, h2⟩

theorem pred_succ_mod (n i : Nat) (hi : i < n) : ((i + 1) % n + n - 1) % n = i := by
  rw [succ_mod n i hi]
  split
  · next h => simp; omega
  · next h =>
    have e : i + 1 + n - 1 = i + n := by omega
    rw [e, Nat.add_mod_right, Nat.mod_eq_of_lt hi]

theorem succ_pred_mod (n i : Nat) (hi : i < n) : ((i + n - 1) % n + 1) % n = i := by
  rw [pred_mod n i hi]
  split
  · next h =>
    have e : n - 1 + 1 = n := by omega
    rw [e, Nat.mod_self, h]
  · next h =>
    have e : i - 1 + 1 = i := by omega
    rw [e, Nat.mod_eq_of_lt hi]

/-- A query that names a canonical triple is found, with an index from `2` to `cp`. -/
theorem findControlPoint_bounds_of_names (n d s c r i j k : Nat) (hn : 1 ≤ n) (hd : 1 ≤ d)
    (hr : r < layers d) (hs : s < n) (h1 : r ≤ c) (h2 : c + r < d)
    (hq : (i = s ∧ j = c ∧ k = r) ∨ (i = (s + n - 1) % n ∧ j = d - r ∧ k = c) ∨
      (i = (s + 1) % n ∧ j = r ∧ k = d - c)) :
    2 ≤ findControlPoint n d (cp n d) i j k ∧ findControlPoint n d (cp n d) i j k ≤ cp n d := by
  have hmem : (s, c, r) ∈ visited n d := by
    rw [visited_eq_canonicalOrder n d hn hd, mem_canonicalOrder]
    exact ⟨hr, hs, h1, h2⟩
  have hp := placeOf_lt_length _ _ hmem
  have hlen := length_visited n d
  have hcp : 1 ≤ cp n d := by unfold cp; omega
  rw [findControlPoint_of_names n d s c r i j k hn hd hr hs h1 h2 hq]
  omega

/-- Every query with `i < n`, `j ≤ ⌊d / 2⌋ + 1` and `k ≤ l - 1` is found. -/
theorem findControlPoint_found (n d i j k : Nat) (hn : 1 ≤ n) (hd : 1 ≤ d) (hi : i < n)
    (hj : j ≤ d / 2 + 1) (hk : k ≤ layers d - 1) :
    2 ≤ findControlPoint n d (cp n d) i j k ∧ findControlPoint n d (cp n d) i j k ≤ cp n d := by
  have hl : layers d = (d + 1) / 2 := rfl
  by_cases hjk : j < k
  · refine findControlPoint_bounds_of_names n d ((i + n - 1) % n) (d - k) j i j k hn hd
      (by omega) (Nat.mod_lt _ (by omega)) (by omega) (by omega)
      (Or.inr (Or.inr ⟨(succ_pred_mod n i hi).symm, rfl, by omega⟩))
  · by_cases hcan : j + k < d
    · exact findControlPoint_bounds_of_names n d i j k i j k hn hd (by omega) hi (by omega)
        hcan (Or.inl ⟨rfl, rfl, rfl⟩)
    · refine findControlPoint_bounds_of_names n d ((i + 1) % n) k (d - j) i j k hn hd
        (by omega) (Nat.mod_lt _ (by omega)) (by omega) (by omega)
        (Or.inr (Or.inl ⟨(pred_succ_mod n i hi).symm, by omega, rfl⟩))

/-- C16: every face written by `writeBezierControlPoints` refers to existing vertices only.
For `n ≥ 3` and `d ≥ 1`, every index `findControlPoint(i, j, k)` with `i < n`,
`j ≤ ⌊d / 2⌋ + 1` and `k ≤ l - 1` is found: it is not `0` and lies in `2 … cp`; and every
number in every `f` line of the file is the number of one of the `cp` vertices written. -/
theorem faces_refer_to_vertices (n d : Nat) (hn : 3 ≤ n) (hd : 1 ≤ d) :
    (∀ i j k : Nat, i < n → j ≤ d / 2 + 1 → k ≤ layers d - 1 →
      findControlPoint n d (cp n d) i j k ≠ 0 ∧
      2 ≤ findControlPoint n d (cp n d) i j k ∧
      findControlPoint n d (cp n d) i j k ≤ cp n d) ∧
    (∀ (D T : Type) (put : D → T) (surf : SurfaceGeneralizedBezier (Point3D D))
      (name : String), surf.n = n → surf.degree_ = d →
      ∃ mesh, (writeBezierControlPoints put surf name true).1 = some mesh ∧
        mesh.vertices.length = cp n d ∧
        ∀ face ∈ mesh.faces, ∀ v ∈ face, 1 ≤ v ∧ v ≤ mesh.vertices.length) := by
  have hn1 : 1 ≤ n := by omega
  have hl : layers d = (d + 1) / 2 := rfl
  have hcp : 1 ≤ cp n d := by unfold cp; omega
  have hfound : ∀ i j k : Nat, i < n → j ≤ d / 2 + 1 → k ≤ layers d - 1 →
      1 ≤ findControlPoint n d (cp n d) i j k ∧ findControlPoint n d (cp n d) i j k ≤ cp n d := by
    intro i j k hi hj hk
    have h := findControlPoint_found n d i j k hn1 hd hi hj hk
    exact ⟨by omega, h.2⟩
  constructor
  · intro i j k hi hj hk
    have h := findControlPoint_found n d i j k hn1 hd hi hj hk
    exact ⟨by omega, h.1, h.2⟩
  · intro D T put surf name hsn hsd
    have hvl : (writePoint put surf.central_cp_ ::
        (visited surf.n surf.degree_).map fun t =>
          writePoint put (surf.controlPoint t.1 t.2.1 t.2.2)).length = cp n d := by
      simp only [List.length_cons, List.length_map, hsn, hsd, length_visited]
      omega
    refine ⟨_, writeBezierControlPoints_opened put surf name, hvl, ?_⟩
    intro face hface v hv
    simp only [hvl]
    simp only [hsn, hsd, List.mem_append] at hface
    rcases hface with hface | hface
    · simp only [quadFaces, List.mem_flatMap, List.mem_map, List.mem_range] at hface
      obtain ⟨i, hi, j, hj, k, hk, rfl⟩ := hface
      simp only [List.mem_cons, List.mem_singleton, List.not_mem_nil, or_false] at hv
      rcases hv with rfl | rfl | rfl | rfl
      · exact hfound i j k hi (by omega) (by omega)
      · exact hfound i (j + 1) k hi (by omega) (by omega)
      · exact hfound i (j + 1) (k + 1) hi (by omega) (by omega)
      · exact hfound i j (k + 1) hi (by omega) (by omega)
    · unfold ringFaces at hface
      split at hface
      · simp only [List.mem_map, List.mem_range] at hface
        obtain ⟨i, hi, rfl⟩ := hface
        simp only [List.mem_cons, List.mem_singleton, List.not_mem_nil, or_false] at hv
        rcases hv with rfl | rfl | rfl | rfl
        · exact hfound i _ _ hi (by omega) (le_refl _)
        · exact hfound i _ _ hi (by omega) (le_refl _)
        · exact ⟨le_refl 1, hcp⟩
        · exact hfound _ _ _ (Nat.mod_lt _ (by omega)) (by omega) (le_refl _)
      · simp only [List.mem_map, List.mem_range] at hface
        obtain ⟨i, hi, rfl⟩ := hface
        simp only [List.mem_cons, List.mem_singleton, List.not_mem_nil, or_false] at hv
        rcases hv with rfl | rfl | rfl
        · exact hfound i _ _ hi (by omega) (le_refl _)
        · exact hfound i _ _ hi (by omega) (le_refl _)
        · exact ⟨le_refl 1, hcp⟩

/-- Witness of C16: in a triangle patch of degree 3 the query `(0, 2, 1)`, an alias of the
innermost point of side 1, is found. -/
theorem faces_refer_to_vertices_witness :
    findControlPoint 3 3 (cp 3 3) 0 2 1 ≠ 0 ∧ 2 ≤ findControlPoint 3 3 (cp 3 3) 0 2 1 ∧
    findControlPoint 3 3 (cp 3 3) 0 2 1 ≤ cp 3 3 :=
  (faces_refer_to_vertices 3 3 (by decide) (by decide)).1 0 2 1 (by decide) (by decide)
    (by decide)

/-- C17: central-point connection in the mesh export.  For `n ≥ 3`, `d ≥ 1` and a side
`i < n`, the second face loop of `writeBezierControlPoints` writes `n` faces, one for each
side, after the faces of the first loop; the face of side `i` contains vertex `1`, the
central point, and the vertex of the innermost point `(i, l - 1, l - 1)` of side `i`; it
has three vertices when `d` is odd and four when `d` is even. -/
theorem ringFaces_central (n d i : Nat) (hn : 3 ≤ n) (hd : 1 ≤ d) (hi : i < n) :
    (ringFaces n d (layers d) (findControlPoint n d (cp n d))).length = n ∧
    (∃ face, (ringFaces n d (layers d) (findControlPoint n d (cp n d)))[i]? = some face ∧
      1 ∈ face ∧
      findControlPoint n d (cp n d) i (layers d - 1) (layers d - 1) ∈ face ∧
      (d % 2 = 1 → face.length = 3) ∧ (d % 2 = 0 → face.length = 4)) ∧
    findControlPoint n d (cp n d) i (layers d - 1) (layers d - 1)
      = placeOf (i, layers d - 1, layers d - 1) (visited n d) + 2 ∧
    (visited n d)[placeOf (i, layers d - 1, layers d - 1) (visited n d)]?
      = some (i, layers d - 1, layers d - 1) ∧
    (∀ (D T : Type) (put : D → T) (surf : SurfaceGeneralizedBezier (Point3D D))
      (name : String), surf.n = n → surf.degree_ = d →
      ∃ mesh, (writeBezierControlPoints put surf name true).1 = some mesh ∧
        mesh.faces = quadFaces n d (layers d) (findControlPoint n d (cp n d))
          ++ ringFaces n d (layers d) (findControlPoint n d (cp n d))) := by
  have hl : layers d = (d + 1) / 2 := rfl
  have hcan : (i, layers d - 1, layers d - 1) ∈ visited n d := by
    rw [visited_eq_canonicalOrder n d (by omega) hd, mem_canonicalOrder]
    exact ⟨by simp only []; omega, hi, le_refl _, by simp only []; omega⟩
  refine ⟨?_, ?_, ?_, getElem?_placeOf _ _ hcan, ?_⟩
  · unfold ringFaces; split <;> simp
  · unfold ringFaces
    split
    · next h =>
      refine ⟨[findControlPoint n d (cp n d) i (layers d - 1) (layers d - 1),
        findControlPoint n d (cp n d) i (layers d) (layers d - 1), 1,
        findControlPoint n d (cp n d) ((i + n - 1) % n) (layers d) (layers d - 1)],
        ?_, ?_, ?_, ?_, ?_⟩
      · rw [List.getElem?_map, List.getElem?_range hi]; rfl
      · simp
      · simp
      · intro h'; omega
      · intro _; simp
    · next h =>
      refine ⟨[findControlPoint n d (cp n d) i (layers d - 1) (layers d - 1),
        findControlPoint n d (cp n d) i (layers d) (layers d - 1), 1], ?_, ?_, ?_, ?_, ?_⟩
      · rw [List.getElem?_map, List.getElem?_range hi]; rfl
      · simp
      · simp
      · intro _; simp
      · intro h'; omega
  · exact findControlPoint_of_names n d i (layers d - 1) (layers d - 1) _ _ _ (by omega) hd
      (by omega) hi (le_refl _) (by omega) (Or.inl ⟨rfl, rfl, rfl⟩)
  · intro D T put surf name hsn hsd
    refine ⟨_, writeBezierControlPoints_opened put surf name, ?_⟩
    simp only [hsn, hsd]

/-- Witness of C17: the three innermost faces of a triangle patch of degree 3. -/
theorem ringFaces_central_witness :
    (ringFaces 3 3 (layers 3) (findControlPoint 3 3 (cp 3 3))).length = 3 :=
  (ringFaces_central 3 3 0 (by decide) (by decide) (by decide)).1

end Transfinite

namespace Geometry

/-! ## The matrices of `matrix3x3.cc` -/

theorem range3 : List.range 3 = [0, 1, 2] := rfl

theorem range9 : List.range 9 = [0, 1, 2, 3, 4, 5, 6, 7, 8] := rfl

theorem Matrix3x3.eq_of_m {R : Type} (M N : Matrix3x3 R) (h : ∀ p : Fin 9, M.m_ p = N.m_ p) :
    M = N := by
  cases M; cases N; congr; funext p; exact h p

theorem Matrix3x3.toMatrix_injective {R : Type} (M N : Matrix3x3 R)
    (h : M.toMatrix = N.toMatrix) : M = N := by
  apply Matrix3x3.eq_of_m
  intro p
  have e : ∀ i j : Fin 3, M.get (3 * i.val + j.val) = N.get (3 * i.val + j.val) :=
    fun i j => congrFun (congrFun h i) j
  fin_cases p
  · exact e 0 0
  · exact e 0 1
  · exact e 0 2
  · exact e 1 0
  · exact e 1 1
  · exact e 1 2
  · exact e 2 0
  · exact e 2 1
  · exact e 2 2

theorem Matrix3x3.identity_get {R : Type} [CommRing R] (i j : Fin 3) :
    (Matrix3x3.identity : Matrix3x3 R).get (3 * i.val + j.val)
      = (1 : Matrix (Fin 3) (Fin 3) R) i j := by
  fin_cases i <;> fin_cases j <;>
    simp [Matrix3x3.identity, Matrix3x3.fill, Matrix3x3.set, Matrix3x3.get, Fin.ofNat,
      Function.update]

theorem Matrix3x3.toMatrix_identity {R : Type} [CommRing R] :
    (Matrix3x3.identity : Matrix3x3 R).toMatrix = 1 := by
  ext i j
  simp [Matrix3x3.toMatrix, Matrix3x3.identity_get]

theorem Matrix3x3.mul_get {R : Type} [CommRing R] (a m : Matrix3x3 R) (i j : Fin 3) :
    (a.mul m).get (3 * i.val + j.val)
      = ∑ k : Fin 3, a.get (3 * i.val + k.val) * m.get (3 * k.val + j.val) := by
  fin_cases i <;> fin_cases j <;>
    simp [Matrix3x3.mul, range3, Matrix3x3.set, Matrix3x3.get, Matrix3x3.uninit, Fin.ofNat,
      Function.update, Fin.sum_univ_three]

theorem Matrix3x3.mulVec_apply {R : Type} [CommRing R] (a : Matrix3x3 R) (v : Vector3D R)
    (i : Fin 3) : a.mulVec v i = ∑ k : Fin 3, a.get (3 * i.val + k.val) * v k := by
  fin_cases i <;>
    simp [Matrix3x3.mulVec, range3, Vector3D.set, Vector3D.get, Vector3D.uninit,
      Matrix3x3.get, Fin.ofNat, Function.update, Fin.sum_univ_three]

theorem skew_entries {R : Type} [CommRing R] (a : Vector3D R) :
    skew a 0 0 = 0 ∧ skew a 0 1 = -a 2 ∧ skew a 0 2 = a 1 ∧
    skew a 1 0 = a 2 ∧ skew a 1 1 = 0 ∧ skew a 1 2 = -a 0 ∧
    skew a 2 0 = -a 1 ∧ skew a 2 1 = a 0 ∧ skew a 2 2 = 0 := by
  simp [skew]

theorem skew_mulVec {R : Type} [CommRing R] (a v : Vector3D R) :
    (skew a).mulVec v = crossProduct a v := by
  obtain ⟨h00, h01, h02, h10, h11, h12, h20, h21, h22⟩ := skew_entries a
  funext i
  fin_cases i <;>
    simp [Matrix.mulVec, Matrix.dotProduct, Fin.sum_univ_three, cross_apply, h00, h01, h02,
      h10, h11, h12, h20, h21, h22] <;> ring

theorem rodrigues_apply {R : Type} [CommRing R] (c s : R) (a : Vector3D R) (i j : Fin 3) :
    rodrigues c s a i j
      = c * (1 : Matrix (Fin 3) (Fin 3) R) i j + s * skew a i j + (1 - c) * (a i * a j) := by
  simp [rodrigues, outer]

theorem Matrix3x3.rotation_get {R : Type} [CommRing R] (cos sin : R → R) (a : Vector3D R)
    (t : R) (i j : Fin 3) :
    (Matrix3x3.rotation cos sin a t).get (3 * i.val + j.val)
      = cos t * (1 : Matrix (Fin 3) (Fin 3) R) i j + sin t * skew a i j
        + (1 - cos t) * (a i * a j) := by
  fin_cases i <;> fin_cases j <;>
    simp [Matrix3x3.rotation, Matrix3x3.identity, Matrix3x3.fill, Matrix3x3.add,
      Matrix3x3.mulScalar, range3, range9, Matrix3x3.set, Matrix3x3.get, Matrix3x3.uninit,
      Vector3D.get, Fin.ofNat, Function.update, skew] <;> ring

theorem Matrix3x3.toMatrix_rotation {R : Type} [CommRing R] (cos sin : R → R)
    (a : Vector3D R) (t : R) :
    (Matrix3x3.rotation cos sin a t).toMatrix = rodrigues (cos t) (sin t) a := by
  ext i j
  rw [rodrigues_apply, ← Matrix3x3.rotation_get]
  rfl

theorem rodrigues_mul_transpose {R : Type} [CommRing R] (c s : R) (a : Vector3D R) :
    rodrigues c s a * (rodrigues c s a).transpose
    = (c ^ 2 + a.normSqr * s ^ 2) • (1 : Matrix (Fin 3) (Fin 3) R)
      + (-s ^ 2 + 2 * c - 2 * c ^ 2 + a.normSqr * (1 - c) ^ 2) • outer a := by
  obtain ⟨h00, h01, h02, h10, h11, h12, h20, h21, h22⟩ := skew_entries a
  ext i j
  fin_cases i <;> fin_cases j <;>
    simp only [Matrix.mul_apply, Fin.sum_univ_three, Matrix.transpose_apply, rodrigues_apply,
      Matrix.add_apply, Matrix.smul_apply, smul_eq_mul, outer, Matrix.of_apply,
      Vector3D.normSqr, Fin.zero_eta, Fin.mk_one, Fin.reduceFinMk, Matrix.one_apply_eq, ne_eq,
      not_false_eq_true, Matrix.one_apply_ne, Fin.isValue, Fin.reduceEq, one_ne_zero,
      zero_ne_one, h00, h01, h02, h10, h11, h12, h20, h21, h22] <;> ring

theorem rodrigues_det {R : Type} [CommRing R] (c s : R) (a : Vector3D R) :
    (rodrigues c s a).det = (c + (1 - c) * a.normSqr) * (c ^ 2 + a.normSqr * s ^ 2) := by
  obtain ⟨h00, h01, h02, h10, h11, h12, h20, h21, h22⟩ := skew_entries a
  rw [Matrix.det_fin_three]
  simp only [rodrigues_apply, Vector3D.normSqr, Matrix.one_apply_eq, ne_eq,
      not_false_eq_true, Matrix.one_apply_ne, Fin.isValue, Fin.reduceEq, one_ne_zero,
      zero_ne_one, h00, h01, h02, h10, h11, h12, h20, h21, h22]
  ring

/-! ### The entries of `rotation` and of `identity` over any arithmetic -/

/-- The nine entries of `Matrix3x3::rotation` as the code computes them, operation by
operation. -/
theorem Matrix3x3.rotation_m {R : Type} [Zero R] [One R] [Add R] [Sub R] [Mul R] [Neg R]
    (cos sin : R → R) (a : Vector3D R) (t : R) :
    (Matrix3x3.rotation cos sin a t).m_
      = ![1 * cos t + 0 * sin t + a 0 * a 0 * (1 - cos t),
          0 * cos t + -a 2 * sin t + a 0 * a 1 * (1 - cos t),
          0 * cos t + a 1 * sin t + a 0 * a 2 * (1 - cos t),
          0 * cos t + a 2 * sin t + a 1 * a 0 * (1 - cos t),
          1 * cos t + 0 * sin t + a 1 * a 1 * (1 - cos t),
          0 * cos t + -a 0 * sin t + a 1 * a 2 * (1 - cos t),
          0 * cos t + -a 1 * sin t + a 2 * a 0 * (1 - cos t),
          0 * cos t + a 0 * sin t + a 2 * a 1 * (1 - cos t),
          1 * cos t + 0 * sin t + a 2 * a 2 * (1 - cos t)] := by
  funext p
  fin_cases p <;> rfl

theorem Matrix3x3.identity_m {R : Type} [Zero R] [One R] :
    (Matrix3x3.identity : Matrix3x3 R).m_ = ![1, 0, 0, 0, 1, 0, 0, 0, 1] := by
  funext p
  fin_cases p <;> rfl


/-! ### Arithmetic of `Double` -/

theorem Double.overflowBound_gt_one : (1 : ℚ) < Double.overflowBound := by
  norm_num [Double.overflowBound]

theorem Double.ofExact_of_abs_lt (q : ℚ) (h : |q| < Double.overflowBound) :
    Double.ofExact q = Double.fin q := by
  have h1 := (abs_lt.1 h).1
  have h2 := (abs_lt.1 h).2
  unfold Double.ofExact
  rw [if_neg (not_le.2 h2), if_neg (not_le.2 h1)]

theorem Double.ofExact_zero : Double.ofExact 0 = Double.fin 0 :=
  Double.ofExact_of_abs_lt 0 (by rw [abs_zero]; linarith [Double.overflowBound_gt_one])

theorem Double.ofExact_one : Double.ofExact 1 = Double.fin 1 :=
  Double.ofExact_of_abs_lt 1 (by rw [abs_one]; exact Double.overflowBound_gt_one)

theorem Double.fin_mul_fin (a b : ℚ) : Double.fin a * Double.fin b = Double.ofExact (a * b) := rfl

theorem Double.fin_add_fin (a b : ℚ) : Double.fin a + Double.fin b = Double.ofExact (a + b) := rfl

theorem Double.fin_sub_fin (a b : ℚ) : Double.fin a - Double.fin b = Double.ofExact (a + -b) := rfl

theorem Double.neg_fin (a : ℚ) : -Double.fin a = Double.fin (-a) := rfl

theorem Double.zero_eq : (0 : Double) = Double.fin 0 := rfl

theorem Double.one_eq : (1 : Double) = Double.fin 1 := rfl

theorem Double.inf_mul_zero (s : Bool) : Double.inf s * Double.fin 0 = Double.nan := by
  show Double.mul (Double.inf s) (Double.fin 0) = Double.nan
  simp [Double.mul]

theorem Double.add_nan (x : Double) : x + Double.nan = Double.nan := by
  cases x <;> rfl

/-- At the angle `0`, with `cos 0 = 1` and `sin 0 = 0`, an entry of the rotation matrix
whose product of axis components is finite is the entry `e` of the identity. -/
theorem Double.rotation_entry (e u x y : ℚ) (he : e = 0 ∨ e = 1)
    (hxy : |x * y| < Double.overflowBound) :
    Double.fin e * Double.fin 1 + Double.fin u * Double.fin 0 + Double.fin x * Double.fin y * (Double.fin 1 - Double.fin 1)
      = Double.fin e := by
  have h0 : Double.ofExact 0 = Double.fin 0 := Double.ofExact_zero
  have h1 : Double.ofExact 1 = Double.fin 1 := Double.ofExact_one
  have he1 : Double.ofExact e = Double.fin e := by
    rcases he with h | h <;> rw [h]
    · exact h0
    · exact h1
  simp only [Double.fin_mul_fin, Double.fin_sub_fin, Double.fin_add_fin, mul_one, mul_zero, add_zero,
    add_neg_cancel, h0, he1, Double.ofExact_of_abs_lt _ hxy]

/-! ## The claims about `matrix3x3.cc` -/

/-- C5: for a unit-length axis and any angle, over the reals, the matrix
`Matrix3x3::rotation(axis, angle)` is a rotation matrix: it times its transpose is the
identity, and its determinant is `1`. -/
theorem rotation_is_rotation (axis : Vector3D ℝ) (angle : ℝ)
    (hunit : Real.sqrt axis.normSqr = 1) :
    (Matrix3x3.rotation Real.cos Real.sin axis angle).toMatrix
        * (Matrix3x3.rotation Real.cos Real.sin axis angle).toMatrix.transpose = 1 ∧
    (Matrix3x3.rotation Real.cos Real.sin axis angle).toMatrix.det = 1 := by
  have hq : axis.normSqr = 1 := Real.sqrt_eq_one.1 hunit
  have hcs : Real.cos angle ^ 2 + Real.sin angle ^ 2 = 1 := Real.cos_sq_add_sin_sq angle
  have e1 : Real.cos angle ^ 2 + 1 * Real.sin angle ^ 2 = 1 := by linarith
  have e2 : -Real.sin angle ^ 2 + 2 * Real.cos angle - 2 * Real.cos angle ^ 2
      + 1 * (1 - Real.cos angle) ^ 2 = 0 := by linear_combination (-1 : ℝ) * hcs
  rw [Matrix3x3.toMatrix_rotation, rodrigues_mul_transpose, rodrigues_det, hq, e1, e2]
  constructor
  · simp
  · ring

/-- Witness of C5: the axis `(0, 0, 1)` and the angle `1`. -/
theorem rotation_is_rotation_witness :
    (Matrix3x3.rotation Real.cos Real.sin ![0, 0, 1] 1).toMatrix
        * (Matrix3x3.rotation Real.cos Real.sin ![0, 0, 1] 1).toMatrix.transpose = 1 ∧
    (Matrix3x3.rotation Real.cos Real.sin ![0, 0, 1] 1).toMatrix.det = 1 :=
  rotation_is_rotation ![0, 0, 1] 1 (by simp [Vector3D.normSqr])

/-- C6: for every axis `a` and angle `t`, the entry `m_[3 * i + j]` of
`Matrix3x3::rotation(a, t)` is the entry `(i, j)` of
`cos t · I + sin t · [a]× + (1 − cos t) · (a ⊗ a)`, where `[a]×` is the cross-product
matrix (`[a]× v = a × v` for every `v`) and `(a ⊗ a) i j = a i * a j`; the axis enters as
it is given, without normalisation. -/
theorem rotation_rodrigues (axis : Vector3D ℝ) (angle : ℝ) :
    (∀ v : Vector3D ℝ, (skew axis).mulVec v = crossProduct axis v) ∧
    (∀ i j : Fin 3, outer axis i j = axis i * axis j) ∧
    (∀ i j : Fin 3, (Matrix3x3.rotation Real.cos Real.sin axis angle).get (3 * i.val + j.val)
        = Real.cos angle * (1 : Matrix (Fin 3) (Fin 3) ℝ) i j + Real.sin angle * skew axis i j
          + (1 - Real.cos angle) * outer axis i j) ∧
    (Matrix3x3.rotation Real.cos Real.sin axis angle).toMatrix
      = Real.cos angle • (1 : Matrix (Fin 3) (Fin 3) ℝ) + Real.sin angle • skew axis
        + (1 - Real.cos angle) • outer axis :=
  ⟨fun v => skew_mulVec axis v, fun _ _ => rfl,
    fun i j => Matrix3x3.rotation_get Real.cos Real.sin axis angle i j,
    Matrix3x3.toMatrix_rotation Real.cos Real.sin axis angle⟩

/-- C7, the claim as stated fails on `double`: the axis `(2^700, 0, 0)` has finite
components, its product `axis[0] * axis[0]` overflows to `+∞`, and `∞ * (1 - cos 0)` is
NaN, so that entry `0` of `Matrix3x3::rotation(axis, 0)` is NaN, whereas entry `0` of
`Matrix3x3::identity()` is `1`; this for every `cos` and `sin` with `cos 0 = 1` and
`sin 0 = 0`. -/
theorem rotation_zero_angle_counterexample :
    (∀ cos sin : Double → Double, cos 0 = 1 → sin 0 = 0 →
      (Matrix3x3.rotation cos sin ![Double.fin (2 ^ 700), 0, 0] 0).get 0 = Double.nan) ∧
    (Matrix3x3.identity : Matrix3x3 Double).get 0 = 1 ∧
    ¬ ∃ cos sin : Double → Double, cos 0 = 1 ∧ sin 0 = 0 ∧
      Matrix3x3.rotation cos sin ![Double.fin (2 ^ 700), 0, 0] 0 = Matrix3x3.identity := by
  have hnan : ∀ cos sin : Double → Double, cos 0 = 1 → sin 0 = 0 →
      (Matrix3x3.rotation cos sin ![Double.fin (2 ^ 700), 0, 0] 0).get 0 = Double.nan := by
    intro cos sin hc hs
    have hinf : Double.ofExact (2 ^ 700 * 2 ^ 700) = Double.inf false := by
      unfold Double.ofExact
      rw [if_pos (by norm_num [Double.overflowBound])]
    show (Matrix3x3.rotation cos sin ![Double.fin (2 ^ 700), 0, 0] 0).m_ 0 = Double.nan
    rw [Matrix3x3.rotation_m, hc, hs]
    show (1 : Double) * 1 + 0 * 0 + Double.fin (2 ^ 700) * Double.fin (2 ^ 700) * (1 - 1) = Double.nan
    rw [Double.one_eq, Double.zero_eq, Double.fin_sub_fin, add_neg_cancel, Double.ofExact_zero,
      Double.fin_mul_fin (2 ^ 700), hinf, Double.inf_mul_zero, Double.add_nan]
  refine ⟨hnan, rfl, ?_⟩
  rintro ⟨cos, sin, hc, hs, h⟩
  have h0 := hnan cos sin hc hs
  rw [h] at h0
  exact Double.noConfusion h0

/-- C7 as amended: over exact real arithmetic `Matrix3x3::rotation(axis, 0)` is
`Matrix3x3::identity()` for every axis (of any length, the zero vector included); on
`double` it is for every axis with finite components none of whose products
`axis[i] * axis[j]` overflows. -/
theorem rotation_zero_angle :
    (∀ axis : Vector3D ℝ,
      Matrix3x3.rotation Real.cos Real.sin axis 0 = Matrix3x3.identity) ∧
    (∀ (cos sin : Double → Double) (a : Vector3D ℚ), cos 0 = 1 → sin 0 = 0 →
      (∀ i j : Fin 3, |a i * a j| < Double.overflowBound) →
      Matrix3x3.rotation cos sin (fun i => Double.fin (a i)) 0 = Matrix3x3.identity) := by
  constructor
  · intro axis
    apply Matrix3x3.toMatrix_injective
    rw [Matrix3x3.toMatrix_rotation, Matrix3x3.toMatrix_identity, rodrigues, Real.cos_zero,
      Real.sin_zero]
    simp
  · intro cos sin a hc hs hfin
    apply Matrix3x3.eq_of_m
    intro p
    rw [Matrix3x3.rotation_m, Matrix3x3.identity_m, hc, hs]
    simp only [Double.one_eq, Double.zero_eq, Double.neg_fin]
    fin_cases p
    · exact Double.rotation_entry 1 0 (a 0) (a 0) (Or.inr rfl) (hfin 0 0)
    · exact Double.rotation_entry 0 (-a 2) (a 0) (a 1) (Or.inl rfl) (hfin 0 1)
    · exact Double.rotation_entry 0 (a 1) (a 0) (a 2) (Or.inl rfl) (hfin 0 2)
    · exact Double.rotation_entry 0 (a 2) (a 1) (a 0) (Or.inl rfl) (hfin 1 0)
    · exact Double.rotation_entry 1 0 (a 1) (a 1) (Or.inr rfl) (hfin 1 1)
    · exact Double.rotation_entry 0 (-a 0) (a 1) (a 2) (Or.inl rfl) (hfin 1 2)
    · exact Double.rotation_entry 0 (-a 1) (a 2) (a 0) (Or.inl rfl) (hfin 2 0)
    · exact Double.rotation_entry 0 (a 0) (a 2) (a 1) (Or.inl rfl) (hfin 2 1)
    · exact Double.rotation_entry 1 0 (a 2) (a 2) (Or.inr rfl) (hfin 2 2)

/-- Witness of the amended C7 on `double`: the axis `(3, 4, 0)`, of length `5`. -/
theorem rotation_zero_angle_witness :
    Matrix3x3.rotation (fun _ => 1) (fun _ => 0) (fun i => Double.fin ((![3, 4, 0] : Vector3D ℚ) i)) 0
      = (Matrix3x3.identity : Matrix3x3 Double) :=
  rotation_zero_angle.2 (fun _ => 1) (fun _ => 0) ![3, 4, 0] rfl rfl (by
    intro i j
    have hb : (16 : ℚ) < Double.overflowBound := by norm_num [Double.overflowBound]
    fin_cases i <;> fin_cases j <;> norm_num <;> linarith)

/-- C8: over the reals, `Matrix3x3::rotation((0, 0, 1), π / 2)` times the vector
`(1, 0, 0)` is the vector `(0, 1, 0)`. -/
theorem rotation_quarter_turn :
    (Matrix3x3.rotation Real.cos Real.sin ![0, 0, 1] (Real.pi / 2)).mulVec ![1, 0, 0]
      = ![0, 1, 0] := by
  obtain ⟨h00, _, _, h10, _, _, h20, _, _⟩ := skew_entries (![0, 0, 1] : Vector3D ℝ)
  have r0 := Matrix3x3.rotation_get Real.cos Real.sin ![0, 0, 1] (Real.pi / 2) 0 0
  have r1 := Matrix3x3.rotation_get Real.cos Real.sin ![0, 0, 1] (Real.pi / 2) 1 0
  have r2 := Matrix3x3.rotation_get Real.cos Real.sin ![0, 0, 1] (Real.pi / 2) 2 0
  simp [Real.cos_pi_div_two, Real.sin_pi_div_two, h00] at r0
  simp [Real.cos_pi_div_two, Real.sin_pi_div_two, h10] at r1
  simp [Real.cos_pi_div_two, Real.sin_pi_div_two, h20] at r2
  funext i
  fin_cases i <;> simp [Matrix3x3.mulVec_apply, Fin.sum_univ_three, r0, r1, r2]

/-- C10: the matrix products are the row-by-column contraction over the row-major storage:
`(M * N)[3 * i + j] = Σ_k M[3 * i + k] * N[3 * k + j]` and
`(M * v)[i] = Σ_k M[3 * i + k] * v[k]` for all `i, j` in `0..2`. -/
theorem mul_row_by_column (M N : Matrix3x3 ℝ) (v : Vector3D ℝ) (i j : Fin 3) :
    (M.mul N).get (3 * i.val + j.val)
      = ∑ k : Fin 3, M.get (3 * i.val + k.val) * N.get (3 * k.val + j.val) ∧
    (M.mulVec v).get i.val = ∑ k : Fin 3, M.get (3 * i.val + k.val) * v.get k.val := by
  refine ⟨Matrix3x3.mul_get M N i j, ?_⟩
  have e : ∀ (w : Vector3D ℝ) (k : Fin 3), w.get k.val = w k := by
    intro w k
    fin_cases k <;> rfl
  simp only [e]
  exact Matrix3x3.mulVec_apply M v i

/-- A matrix `rodrigues c s a` that is orthogonal with determinant `1` has `c = 1` or an
axis of squared length `1`. -/
theorem rodrigues_rotation_cases (c s : ℝ) (a : Vector3D ℝ)
    (horth : rodrigues c s a * (rodrigues c s a).transpose = 1)
    (hdet : (rodrigues c s a).det = 1) : c = 1 ∨ a.normSqr = 1 := by
  rw [rodrigues_mul_transpose] at horth
  rw [rodrigues_det] at hdet
  have h00 := congrFun (congrFun horth 0) 0
  have h11 := congrFun (congrFun horth 1) 1
  have h22 := congrFun (congrFun horth 2) 2
  have h01 := congrFun (congrFun horth 0) 1
  have h02 := congrFun (congrFun horth 0) 2
  have h12 := congrFun (congrFun horth 1) 2
  simp only [Matrix.add_apply, Matrix.smul_apply, smul_eq_mul, outer, Matrix.of_apply,
    Matrix.one_apply_eq, ne_eq, not_false_eq_true, Matrix.one_apply_ne, Fin.isValue,
    Fin.reduceEq, one_ne_zero, zero_ne_one] at h00 h11 h22 h01 h02 h12
  have hq0 : 0 ≤ a.normSqr := by
    unfold Vector3D.normSqr
    nlinarith [mul_self_nonneg (a 0), mul_self_nonneg (a 1), mul_self_nonneg (a 2)]
  have hquad : a.normSqr * ((c + (1 - c) * a.normSqr) ^ 2 - 1) = 0 := by
    simp only [Vector3D.normSqr] at h00 h11 h22 h01 h02 h12 ⊢
    linear_combination (a 0 * a 0) * h00 + (a 1 * a 1) * h11 + (a 2 * a 2) * h22
      + (2 * (a 0 * a 1)) * h01 + (2 * (a 0 * a 2)) * h02 + (2 * (a 1 * a 2)) * h12
  have htr : 3 * (c ^ 2 + a.normSqr * s ^ 2)
      + (-s ^ 2 + 2 * c - 2 * c ^ 2 + a.normSqr * (1 - c) ^ 2) * a.normSqr = 3 := by
    simp only [Vector3D.normSqr] at h00 h11 h22 ⊢
    linear_combination h00 + h11 + h22
  generalize a.normSqr = q at hdet hquad htr hq0
  rcases mul_eq_zero.1 hquad with h | h
  · subst h
    left
    have h3 : c ^ 2 = 1 := by linarith
    have h4 : c * c ^ 2 = 1 := by linarith
    rw [h3] at h4
    linarith
  · have hfac : (c + (1 - c) * q - 1) * (c + (1 - c) * q + 1) = 0 := by linear_combination h
    rcases mul_eq_zero.1 hfac with h1 | h1
    · have : (1 - c) * (q - 1) = 0 := by linear_combination h1
      rcases mul_eq_zero.1 this with h2 | h2
      · left; linarith
      · right; linarith
    · exfalso
      have hl : c + (1 - c) * q = -1 := by linarith
      rw [hl] at hdet
      have hpos : 0 ≤ c ^ 2 + q * s ^ 2 := by positivity
      linarith

/-- C9, the claim as stated fails: the axis `(2, 0, 0)` has length `2`, and
`Matrix3x3::rotation((2, 0, 0), 0)` is orthogonal with determinant `1` (it is the
identity). -/
theorem rotation_nonunit_axis_counterexample :
    Real.sqrt (Vector3D.normSqr (![2, 0, 0] : Vector3D ℝ)) ≠ 1 ∧
    (Matrix3x3.rotation Real.cos Real.sin ![2, 0, 0] 0).toMatrix
        * (Matrix3x3.rotation Real.cos Real.sin ![2, 0, 0] 0).toMatrix.transpose = 1 ∧
    (Matrix3x3.rotation Real.cos Real.sin ![2, 0, 0] 0).toMatrix.det = 1 := by
  have hid : (Matrix3x3.rotation Real.cos Real.sin ![2, 0, 0] 0).toMatrix = 1 := by
    rw [Matrix3x3.toMatrix_rotation, rodrigues, Real.cos_zero, Real.sin_zero]
    simp
  refine ⟨?_, ?_, ?_⟩
  · intro h
    have := Real.sqrt_eq_one.1 h
    norm_num [Vector3D.normSqr] at this
  · rw [hid]; simp
  · rw [hid]; simp

/-- C9 as amended: over exact real arithmetic, for every axis whose length is not `1` and
every angle at which the cosine used is not `1`, `Matrix3x3::rotation(axis, angle)` is not
a rotation matrix: it is not both orthogonal and of determinant `1`.  The functions `cos`
and `sin` are arbitrary, `Real.cos` and `Real.sin` among them. -/
theorem rotation_nonunit_axis (cos sin : ℝ → ℝ) (axis : Vector3D ℝ) (angle : ℝ)
    (hlen : Real.sqrt axis.normSqr ≠ 1) (hcos : cos angle ≠ 1) :
    ¬ ((Matrix3x3.rotation cos sin axis angle).toMatrix
          * (Matrix3x3.rotation cos sin axis angle).toMatrix.transpose = 1 ∧
        (Matrix3x3.rotation cos sin axis angle).toMatrix.det = 1) := by
  rintro ⟨horth, hdet⟩
  rw [Matrix3x3.toMatrix_rotation] at horth hdet
  rcases rodrigues_rotation_cases _ _ axis horth hdet with h | h
  · exact hcos h
  · exact hlen (by rw [h, Real.sqrt_one])

/-- Witness of the amended C9: the axis `(2, 0, 0)` and the angle `π`, with the real
cosine and sine. -/
theorem rotation_nonunit_axis_witness :
    ¬ ((Matrix3x3.rotation Real.cos Real.sin ![2, 0, 0] Real.pi).toMatrix
          * (Matrix3x3.rotation Real.cos Real.sin ![2, 0, 0] Real.pi).toMatrix.transpose = 1 ∧
        (Matrix3x3.rotation Real.cos Real.sin ![2, 0, 0] Real.pi).toMatrix.det = 1) :=
  rotation_nonunit_axis Real.cos Real.sin ![2, 0, 0] Real.pi (by
    intro h
    have := Real.sqrt_eq_one.1 h
    norm_num [Vector3D.normSqr] at this) (by rw [Real.cos_pi]; norm_num)

/-! ### Products of the matrices -/

theorem Matrix3x3.toMatrix_mul {R : Type} [CommRing R] (M N : Matrix3x3 R) :
    (M.mul N).toMatrix = M.toMatrix * N.toMatrix := by
  ext i j
  simp [Matrix3x3.toMatrix, Matrix3x3.mul_get, Matrix.mul_apply]

theorem Matrix3x3.toMatrix_mulVec {R : Type} [CommRing R] (M : Matrix3x3 R)
    (v : Vector3D R) : M.mulVec v = M.toMatrix.mulVec v := by
  funext i
  simp [Matrix3x3.mulVec_apply, Matrix3x3.toMatrix, Matrix.mulVec, Matrix.dotProduct]

theorem rodrigues_mul {R : Type} [CommRing R] (c₁ s₁ c₂ s₂ : R) (a : Vector3D R) :
    rodrigues c₁ s₁ a * rodrigues c₂ s₂ a
    = (c₁ * c₂ - a.normSqr * (s₁ * s₂)) • (1 : Matrix (Fin 3) (Fin 3) R)
      + (c₁ * s₂ + s₁ * c₂) • skew a
      + (c₁ * (1 - c₂) + s₁ * s₂ + (1 - c₁) * c₂ + (1 - c₁) * (1 - c₂) * a.normSqr)
          • outer a := by
  obtain ⟨h00, h01, h02, h10, h11, h12, h20, h21, h22⟩ := skew_entries a
  ext i j
  fin_cases i <;> fin_cases j <;>
    simp only [Matrix.mul_apply, Fin.sum_univ_three, rodrigues_apply,
      Matrix.add_apply, Matrix.smul_apply, smul_eq_mul, outer, Matrix.of_apply,
      Vector3D.normSqr, Fin.zero_eta, Fin.mk_one, Fin.reduceFinMk, Matrix.one_apply_eq, ne_eq,
      not_false_eq_true, Matrix.one_apply_ne, Fin.isValue, Fin.reduceEq, one_ne_zero,
      zero_ne_one, h00, h01, h02, h10, h11, h12, h20, h21, h22] <;> ring

theorem rodrigues_transpose {R : Type} [CommRing R] (c s : R) (a : Vector3D R) :
    (rodrigues c s a).transpose = rodrigues c (-s) a := by
  obtain ⟨h00, h01, h02, h10, h11, h12, h20, h21, h22⟩ := skew_entries a
  ext i j
  fin_cases i <;> fin_cases j <;>
    simp only [Matrix.transpose_apply, rodrigues_apply, Fin.zero_eta, Fin.mk_one,
      Fin.reduceFinMk, Matrix.one_apply_eq, ne_eq, not_false_eq_true, Matrix.one_apply_ne,
      Fin.isValue, Fin.reduceEq, one_ne_zero, zero_ne_one, h00, h01, h02, h10, h11, h12, h20,
      h21, h22] <;> ring

/-- C18: rotations about one axis compose by adding angles.  For a unit-length axis `a`
and angles `s`, `t`, over the reals, `rotation(a, s) * rotation(a, t)` (the product of
`Matrix3x3::operator*`) is `rotation(a, s + t)`. -/
theorem rotation_mul_rotation (axis : Vector3D ℝ) (s t : ℝ)
    (hunit : Real.sqrt axis.normSqr = 1) :
    (Matrix3x3.rotation Real.cos Real.sin axis s).mul
        (Matrix3x3.rotation Real.cos Real.sin axis t)
      = Matrix3x3.rotation Real.cos Real.sin axis (s + t) := by
  have hq : axis.normSqr = 1 := Real.sqrt_eq_one.1 hunit
  apply Matrix3x3.toMatrix_injective
  rw [Matrix3x3.toMatrix_mul, Matrix3x3.toMatrix_rotation, Matrix3x3.toMatrix_rotation,
    Matrix3x3.toMatrix_rotation, rodrigues_mul, hq, Real.cos_add, Real.sin_add, rodrigues]
  have e1 : Real.cos s * Real.cos t - 1 * (Real.sin s * Real.sin t)
      = Real.cos s * Real.cos t - Real.sin s * Real.sin t := by ring
  have e2 : Real.cos s * Real.sin t + Real.sin s * Real.cos t
      = Real.sin s * Real.cos t + Real.cos s * Real.sin t := by ring
  have e3 : Real.cos s * (1 - Real.cos t) + Real.sin s * Real.sin t
        + (1 - Real.cos s) * Real.cos t + (1 - Real.cos s) * (1 - Real.cos t) * 1
      = 1 - (Real.cos s * Real.cos t - Real.sin s * Real.sin t) := by ring
  rw [e1, e2, e3]

/-- Witness of C18: the axis `(0, 0, 1)` and the angles `1` and `2`. -/
theorem rotation_mul_rotation_witness :
    (Matrix3x3.rotation Real.cos Real.sin ![0, 0, 1] 1).mul
        (Matrix3x3.rotation Real.cos Real.sin ![0, 0, 1] 2)
      = Matrix3x3.rotation Real.cos Real.sin ![0, 0, 1] (1 + 2) :=
  rotation_mul_rotation ![0, 0, 1] 1 2 (by simp [Vector3D.normSqr])

/-- C19: for every axis `a`, of any length, and every angle `t`, over the reals,
`rotation(a, -t)` is the transpose of `rotation(a, t)`: its entry `m_[3 * i + j]` is the
entry `m_[3 * j + i]` of `rotation(a, t)`. -/
theorem rotation_neg_transpose (axis : Vector3D ℝ) (t : ℝ) :
    (Matrix3x3.rotation Real.cos Real.sin axis (-t)).toMatrix
      = (Matrix3x3.rotation Real.cos Real.sin axis t).toMatrix.transpose ∧
    ∀ i j : Fin 3,
      (Matrix3x3.rotation Real.cos Real.sin axis (-t)).get (3 * i.val + j.val)
        = (Matrix3x3.rotation Real.cos Real.sin axis t).get (3 * j.val + i.val) := by
  have h : (Matrix3x3.rotation Real.cos Real.sin axis (-t)).toMatrix
      = (Matrix3x3.rotation Real.cos Real.sin axis t).toMatrix.transpose := by
    rw [Matrix3x3.toMatrix_rotation, Matrix3x3.toMatrix_rotation, rodrigues_transpose,
      Real.cos_neg, Real.sin_neg]
  exact ⟨h, fun i j => congrFun (congrFun h i) j⟩

/-- C20: matrix composition agrees with successive application and `identity()` is
neutral: for all matrices `M`, `N` and every vector `v`, over the reals,
`(M * N) * v = M * (N * v)`, `identity() * M = M`, `M * identity() = M` and
`identity() * v = v`. -/
theorem mul_mulVec_identity (M N : Matrix3x3 ℝ) (v : Vector3D ℝ) :
    (M.mul N).mulVec v = M.mulVec (N.mulVec v) ∧
    Matrix3x3.identity.mul M = M ∧
    M.mul Matrix3x3.identity = M ∧
    (Matrix3x3.identity : Matrix3x3 ℝ).mulVec v = v := by
  refine ⟨?_, ?_, ?_, ?_⟩
  · rw [Matrix3x3.toMatrix_mulVec, Matrix3x3.toMatrix_mulVec, Matrix3x3.toMatrix_mulVec,
      Matrix3x3.toMatrix_mul, Matrix.mulVec_mulVec]
  · apply Matrix3x3.toMatrix_injective
    rw [Matrix3x3.toMatrix_mul, Matrix3x3.toMatrix_identity, one_mul]
  · apply Matrix3x3.toMatrix_injective
    rw [Matrix3x3.toMatrix_mul, Matrix3x3.toMatrix_identity, mul_one]
  · rw [Matrix3x3.toMatrix_mulVec, Matrix3x3.toMatrix_identity, Matrix.one_mulVec]

end Geometry
